import Mathlib

/-!
Verification of the o2ims field-selector / filter expression language.

This file gives a shallow embedding of the two dialects of the query
language implemented by the repository:

* the selector-dialect lexical scanner, translated from
  `internal/selector/lexer.go`;
* the filter-dialect parser, translated from the `filter` package parser
  source; its companion lexer, the AST types and the serializer are not
  part of the provided sources, so they are modelled from the
  specification (their doc comments say so explicitly).

Machine strings are modelled as `List Char` / `String`; Go errors are
modelled as `Except String`; panics recovered by `Parse` are modelled as
`Except.error` results.
-/

namespace Selector

/-- Terminal symbols of the selector dialect (`exprSymbol` in
`internal/selector/lexer.go`). -/
inductive exprSymbol where
  | End
  | Identifier
  | Comma
  | Slash
deriving DecidableEq, Repr

/-- Tokens returned by the selector lexer (`exprToken`): a terminal symbol
together with its text. The Go struct has no position field. -/
structure exprToken where
  symbol : exprSymbol
  text : String
deriving DecidableEq, Repr

/-- The three states `S0`, `S1`, `S2` of the `FetchToken` state machine. -/
inductive lexState where
  | S0
  | S1
  | S2
deriving DecidableEq, Repr

/-- Models Go `unicode.IsSpace` by `Char.isWhitespace` (the inputs the
claims exercise are ASCII, where the two agree). -/
def isSpace (c : Char) : Bool := c.isWhitespace

/-- Models Go `unicode.IsLetter` by `Char.isAlpha` (agreeing on ASCII). -/
def isLetter (c : Char) : Bool := c.isAlpha

/-- Models Go `unicode.IsDigit` by `Char.isDigit` (agreeing on ASCII). -/
def isDigit (c : Char) : Bool := c.isDigit

/-- `exprLexerBuilder.Build`: the source must be non-empty; the logger is
modelled away (log output is not observable behaviour). The lexer state is
the list of characters remaining in the buffer. -/
def build (source : String) : Except String (List Char) :=
  if source.length = 0 then .error "source is mandatory"
  else .ok source.toList

/-- The loop body of `exprLexer.FetchToken`, one recursive call per rune
read. `readRune` maps `io.EOF` to the rune `0`, and an actual NUL
character in the buffer also reads as the rune `0` (but is consumed); the
empty list plays the end-of-input role, and a `'\x00'` list element plays
the embedded-NUL role, exactly as in the Go switch order. The branch
conditions follow the Go `switch` cases in order. -/
def fetchTokenLoop : lexState → List Char → List Char →
    Except String (exprToken × List Char)
  | .S0, _, [] => .ok (⟨.End, ""⟩, [])
  | .S0, lexeme, c :: cs =>
      if isSpace c then fetchTokenLoop .S0 lexeme cs
      else if isLetter c || c = '_' then fetchTokenLoop .S1 (lexeme ++ [c]) cs
      else if c = ',' then .ok (⟨.Comma, ","⟩, cs)
      else if c = '/' then .ok (⟨.Slash, "/"⟩, cs)
      else if c = '~' then fetchTokenLoop .S2 lexeme cs
      else if c = '\x00' then .ok (⟨.End, ""⟩, cs)
      else .error ("unexpected character '" ++ String.mk [c] ++
        "' while expecting start of identifier")
  | .S1, lexeme, [] => .ok (⟨.Identifier, String.mk lexeme⟩, [])
  | .S1, lexeme, c :: cs =>
      if isLetter c || isDigit c || c = '_' then
        fetchTokenLoop .S1 (lexeme ++ [c]) cs
      else if c = '~' then fetchTokenLoop .S2 lexeme cs
      else .ok (⟨.Identifier, String.mk lexeme⟩, c :: cs)
  | .S2, _, [] =>
      .error ("unknown escape sequence '~" ++ String.mk ['\x00'] ++
        "', valid escape sequences are '~0' for '/', '~' for '/' and '~a' for ','")
  | .S2, lexeme, c :: cs =>
      if c = '0' then fetchTokenLoop .S0 (lexeme ++ ['~']) cs
      else if c = '1' then fetchTokenLoop .S0 (lexeme ++ ['/']) cs
      else if c = 'a' then fetchTokenLoop .S0 (lexeme ++ [',']) cs
      else .error ("unknown escape sequence '~" ++ String.mk [c] ++
        "', valid escape sequences are '~0' for '/', '~' for '/' and '~a' for ','")

/-- `exprLexer.FetchToken`: fetch the next token from the remaining input,
returning it together with the input left over after it. -/
def fetchToken (cs : List Char) : Except String (exprToken × List Char) :=
  fetchTokenLoop .S0 [] cs

end Selector

namespace Filter

/-- Terminal symbols of the filter dialect. Modelled from the spec: the
filter-package lexer file is not among the provided sources; the symbol
set is the one of spec section 4.1, also visible in the parser source
(`exprSymbolEnd`, ..., `exprSymbolString`). -/
inductive exprSymbol where
  | End
  | Identifier
  | LeftParenthesis
  | RightParenthesis
  | Comma
  | Semicolon
  | Slash
  | String
deriving DecidableEq, Repr

/-- Tokens of the filter-dialect lexer: terminal symbol plus text, as in
the selector lexer twin; tokens carry no position. -/
structure exprToken where
  symbol : exprSymbol
  text : String
deriving DecidableEq, Repr

/-- The two lexer modes switched by the parser (`exprDefaultMode`,
`exprValuesMode` in the parser source). -/
inductive exprMode where
  | defaultMode
  | valuesMode
deriving DecidableEq, Repr

/-- States of the default-mode identifier DFA, as in spec section 4.2. -/
inductive lexState where
  | S0
  | S1
  | S2
deriving DecidableEq, Repr

/-- Escape table of the filter dialect (spec section 4.2):
`~0` for `~`, `~1` for `/`, `~a` for `,`, `~b` for `@`. -/
def decodeEscape (c : Char) : Option Char :=
  if c = '0' then some '~'
  else if c = '1' then some '/'
  else if c = 'a' then some ','
  else if c = 'b' then some '@'
  else none

/-- Modelled from the spec: default-mode loop of the filter-dialect
lexer's `FetchToken` (the lexer file is not among the provided sources).
It follows the DFA of spec section 4.2 with the structure of the selector
lexer twin in `internal/selector/lexer.go`: S0 skips whitespace, starts
identifiers, emits punctuation and End, and starts escapes; S1 extends
identifiers and pushes back the terminating character; S2 decodes exactly
one escape character and returns to S0 (so a punctuation character or end
of input right after an escape discards the accumulated lexeme). Per spec
sections 4.5 and 8 (scenario S5), `@` is accepted verbatim at the start of
an identifier, so that the path segment `@key` lexes; S1 keeps the spec's
letter/digit/underscore continuation set. End of input is the empty list. -/
def lexDefault : lexState → List Char → List Char →
    Except String (exprToken × List Char)
  | .S0, _, [] => .ok (⟨.End, ""⟩, [])
  | .S0, lexeme, c :: cs =>
      if Selector.isSpace c then lexDefault .S0 lexeme cs
      else if Selector.isLetter c || c = '_' || c = '@' then
        lexDefault .S1 (lexeme ++ [c]) cs
      else if c = ',' then .ok (⟨.Comma, ","⟩, cs)
      else if c = ';' then .ok (⟨.Semicolon, ";"⟩, cs)
      else if c = '/' then .ok (⟨.Slash, "/"⟩, cs)
      else if c = '(' then .ok (⟨.LeftParenthesis, "("⟩, cs)
      else if c = ')' then .ok (⟨.RightParenthesis, ")"⟩, cs)
      else if c = '~' then lexDefault .S2 lexeme cs
      else .error ("unexpected character '" ++ String.mk [c] ++
        "' while expecting start of identifier")
  | .S1, lexeme, [] => .ok (⟨.Identifier, String.mk lexeme⟩, [])
  | .S1, lexeme, c :: cs =>
      if Selector.isLetter c || Selector.isDigit c || c = '_' then
        lexDefault .S1 (lexeme ++ [c]) cs
      else if c = '~' then lexDefault .S2 lexeme cs
      else .ok (⟨.Identifier, String.mk lexeme⟩, c :: cs)
  | .S2, _, [] => .error "unknown escape sequence at end of input"
  | .S2, lexeme, c :: cs =>
      match decodeEscape c with
      | some d => lexDefault .S0 (lexeme ++ [d]) cs
      | none => .error ("unknown escape sequence '~" ++ String.mk [c] ++ "'")

/-- Modelled from the spec: body of a single-quoted string literal in
values mode (spec section 4.2, string DFA). Characters accumulate
verbatim; a doubled quote decodes to one quote; the literal ends at the
first unescaped quote; end of input first is a lexical error. -/
def lexStringBody : List Char → List Char → Except String (String × List Char)
  | _, [] => .error "unterminated string"
  | acc, c :: cs =>
      if c = '\'' then
        match cs with
        | [] => .ok (String.mk acc, [])
        | c2 :: cs2 =>
            if c2 = '\'' then lexStringBody (acc ++ ['\'']) cs2
            else .ok (String.mk acc, c2 :: cs2)
      else lexStringBody (acc ++ [c]) cs

/-- Modelled from the spec: values-mode fetch of the filter-dialect lexer
(spec section 4.2). It recognises single-quoted strings, `,` and `)`,
skips whitespace, returns End at end of input (as the S0 twin does), and
rejects any other character. -/
def lexValues : List Char → Except String (exprToken × List Char)
  | [] => .ok (⟨.End, ""⟩, [])
  | c :: cs =>
      if Selector.isSpace c then lexValues cs
      else if c = '\'' then
        match lexStringBody [] cs with
        | .error e => .error e
        | .ok (txt, rest) => .ok (⟨.String, txt⟩, rest)
      else if c = ',' then .ok (⟨.Comma, ","⟩, cs)
      else if c = ')' then .ok (⟨.RightParenthesis, ")"⟩, cs)
      else .error ("unexpected character '" ++ String.mk [c] ++
        "' while expecting value")

/-- The filter lexer's `FetchToken`, dispatching on the current mode. -/
def fetchToken : exprMode → List Char → Except String (exprToken × List Char)
  | .defaultMode, cs => lexDefault .S0 [] cs
  | .valuesMode, cs => lexValues cs

/-- The relational operators. Modelled from the spec: the AST source file
is not among the provided sources; spec section 3 fixes the closed
enumeration, whose constants (except `Lte`) also appear in the parser
source. -/
inductive Operator where
  | Cont
  | Eq
  | Gt
  | Gte
  | In
  | Lt
  | Lte
  | Ncont
  | Neq
  | Nin
deriving DecidableEq, Repr

/-- A filter term. Modelled from the spec (section 3) and the parser
source: operator, non-empty path, list of values. The Go field `Values`
has type `[]any`, but the parser only ever stores the texts of `String`
tokens in it, so it is modelled as `List String`. -/
structure Term where
  operator : Operator
  path : List String
  values : List String
deriving DecidableEq, Repr

/-- A filter expression: the ordered list of its terms (spec section 3,
and the `Expr` literal built by `parseExpr`). -/
structure Expr where
  terms : List Term
deriving DecidableEq, Repr

/-- Models Go `strings.ToLower` character by character (`Char.toLower`
lowers ASCII letters and keeps everything else, which is all the operator
lexemes need). -/
def toLowerStr (s : String) : String :=
  String.mk (s.toList.map Char.toLower)

/-- The operator lookup performed by `parseOperator` in the parser source:
lower-case the identifier and switch on it. The `"lte"` case returns `Gt`,
exactly as the source does. -/
def operatorOfName (name : String) : Except String Operator :=
  let n := toLowerStr name
  if n = "cont" then .ok .Cont
  else if n = "eq" then .ok .Eq
  else if n = "gt" then .ok .Gt
  else if n = "gte" then .ok .Gte
  else if n = "in" then .ok .In
  else if n = "lt" then .ok .Lt
  else if n = "lte" then .ok .Gt
  else if n = "ncont" then .ok .Ncont
  else if n = "neq" then .ok .Neq
  else if n = "nin" then .ok .Nin
  else .error ("unknown operator '" ++ name ++ "'")

/-- The state of a `parseTask`: the characters still in the lexer buffer,
the current lexer mode, and the one-token lookahead slot. -/
structure PState where
  rest : List Char
  mode : exprMode
  tok : Option exprToken
deriving Repr

/-- The expected-symbol descriptions used by `consumeToken`'s error. -/
def symbolText : exprSymbol → String
  | .End => "end of input"
  | .Identifier => "identifier"
  | .LeftParenthesis => "left parenthesis"
  | .RightParenthesis => "right parenthesis"
  | .Comma => "comma"
  | .Semicolon => "semicolon"
  | .Slash => "slash"
  | .String => "string"

/-- `parseTask.fetchToken`: discard the current token and fetch a new one
from the lexer (panics on lexer errors, modelled as `Except.error`). -/
def fetchNew (s : PState) : Except String PState :=
  match fetchToken s.mode s.rest with
  | .error e => .error e
  | .ok (t, rest) => .ok ⟨rest, s.mode, some t⟩

/-- `parseTask.currentToken` (with `ensureToken` folded in): return the
current token, fetching it from the lexer if the slot is empty. -/
def currentToken (s : PState) : Except String (exprToken × PState) :=
  match s.tok with
  | some t => .ok (t, s)
  | none =>
      match fetchToken s.mode s.rest with
      | .error e => .error e
      | .ok (t, rest) => .ok (t, ⟨rest, s.mode, some t⟩)

/-- `parseTask.checkToken`: does the current token have this symbol? -/
def checkToken (sym : exprSymbol) (s : PState) :
    Except String (Bool × PState) :=
  match currentToken s with
  | .error e => .error e
  | .ok (t, s') => .ok (t.symbol == sym, s')

/-- `parseTask.consumeToken`: check the current token's symbol and discard
it; otherwise panic with the unexpected-token message. -/
def consumeToken (sym : exprSymbol) (s : PState) : Except String PState :=
  match currentToken s with
  | .error e => .error e
  | .ok (t, s') =>
      if t.symbol == sym then .ok { s' with tok := none }
      else .error ("unexpected token '" ++ t.text ++ "' while expecting " ++
        symbolText sym)

/-- `parseTask.parseIdentifier`: remember the current token's text and
consume it as an `Identifier`. -/
def parseIdentifier (s : PState) : Except String (String × PState) :=
  match currentToken s with
  | .error e => .error e
  | .ok (t, s1) =>
      match consumeToken .Identifier s1 with
      | .error e => .error e
      | .ok s2 => .ok (t.text, s2)

/-- `parseTask.parseOperator`: an identifier looked up in the operator
table. -/
def parseOperatorTok (s : PState) : Except String (Operator × PState) :=
  match parseIdentifier s with
  | .error e => .error e
  | .ok (name, s1) =>
      match operatorOfName name with
      | .error e => .error e
      | .ok op => .ok (op, s1)

/-- `parseTask.parsePath`: identifiers separated by slashes, stopping in
front of a comma. The Go `for` loop accumulating `segments` is modelled by
fuel-indexed recursion; the fuel handed out by `parse` always suffices
(each iteration consumes at least one input character). -/
def parsePath : Nat → PState → Except String (List String × PState)
  | 0, _ => .error "internal: parser fuel exhausted"
  | Nat.succ fuel, s =>
      match parseIdentifier s with
      | .error e => .error e
      | .ok (seg, s1) =>
          match checkToken .Slash s1 with
          | .error e => .error e
          | .ok (true, s2) =>
              match fetchNew s2 with
              | .error e => .error e
              | .ok s3 =>
                  match parsePath fuel s3 with
                  | .error e => .error e
                  | .ok (segs, s4) => .ok (seg :: segs, s4)
          | .ok (false, s2) =>
              match checkToken .Comma s2 with
              | .error e => .error e
              | .ok (true, s3) => .ok ([seg], s3)
              | .ok (false, s3) =>
                  match currentToken s3 with
                  | .error e => .error e
                  | .ok (t, _) =>
                      .error ("unexpected token '" ++ t.text ++
                        "' while expecting slash or comma")

/-- `parseTask.parseValue`: remember the current token's text and consume
it as a `String`. -/
def parseValue (s : PState) : Except String (String × PState) :=
  match currentToken s with
  | .error e => .error e
  | .ok (t, s1) =>
      match consumeToken .String s1 with
      | .error e => .error e
      | .ok s2 => .ok (t.text, s2)

/-- `parseTask.parseValues`: strings separated by commas, stopping in
front of a right parenthesis (fuel-indexed like `parsePath`). -/
def parseValues : Nat → PState → Except String (List String × PState)
  | 0, _ => .error "internal: parser fuel exhausted"
  | Nat.succ fuel, s =>
      match parseValue s with
      | .error e => .error e
      | .ok (v, s1) =>
          match checkToken .Comma s1 with
          | .error e => .error e
          | .ok (true, s2) =>
              match fetchNew s2 with
              | .error e => .error e
              | .ok s3 =>
                  match parseValues fuel s3 with
                  | .error e => .error e
                  | .ok (vs, s4) => .ok (v :: vs, s4)
          | .ok (false, s2) =>
              match checkToken .RightParenthesis s2 with
              | .error e => .error e
              | .ok (true, s3) => .ok ([v], s3)
              | .ok (false, s3) =>
                  match currentToken s3 with
                  | .error e => .error e
                  | .ok (t, _) =>
                      .error ("unexpected token '" ++ t.text ++
                        "' while expecting comma or right parenthesis")

/-- `parseTask.parseOptionalValues`: empty values in front of a right
parenthesis, otherwise a proper value list. -/
def parseOptionalValues (fuel : Nat) (s : PState) :
    Except String (List String × PState) :=
  match checkToken .RightParenthesis s with
  | .error e => .error e
  | .ok (true, s1) => .ok ([], s1)
  | .ok (false, s1) =>
      match checkToken .String s1 with
      | .error e => .error e
      | .ok (true, s2) => parseValues fuel s2
      | .ok (false, s2) =>
          match currentToken s2 with
          | .error e => .error e
          | .ok (t, _) =>
              .error ("unexpected token '" ++ t.text ++
                "' while expecting value or right parenthesis")

/-- `lexer.SetMode`, invoked by the parser around the value list. -/
def setMode (m : exprMode) (s : PState) : PState :=
  { s with mode := m }

/-- `parseTask.parseTerm`: `'(' Operator ',' Path ',' Values? ')'`, with
the lexer switched to values mode after the second comma and back to
default mode before the closing parenthesis is consumed. -/
def parseTerm (fuel : Nat) (s : PState) : Except String (Term × PState) :=
  match consumeToken .LeftParenthesis s with
  | .error e => .error e
  | .ok s1 =>
      match parseOperatorTok s1 with
      | .error e => .error e
      | .ok (op, s2) =>
          match consumeToken .Comma s2 with
          | .error e => .error e
          | .ok s3 =>
              match parsePath fuel s3 with
              | .error e => .error e
              | .ok (path, s4) =>
                  match consumeToken .Comma s4 with
                  | .error e => .error e
                  | .ok s5 =>
                      match parseOptionalValues fuel (setMode .valuesMode s5) with
                      | .error e => .error e
                      | .ok (values, s6) =>
                          match consumeToken .RightParenthesis
                              (setMode .defaultMode s6) with
                          | .error e => .error e
                          | .ok s7 => .ok (⟨op, path, values⟩, s7)

/-- `parseTask.parseExpr`: terms separated by semicolons, ending at End
(fuel-indexed loop as above). -/
def parseExpr : Nat → PState → Except String (List Term × PState)
  | 0, _ => .error "internal: parser fuel exhausted"
  | Nat.succ fuel, s =>
      match parseTerm (Nat.succ fuel) s with
      | .error e => .error e
      | .ok (term, s1) =>
          match checkToken .Semicolon s1 with
          | .error e => .error e
          | .ok (true, s2) =>
              match fetchNew s2 with
              | .error e => .error e
              | .ok s3 =>
                  match parseExpr fuel s3 with
                  | .error e => .error e
                  | .ok (terms, s4) => .ok (term :: terms, s4)
          | .ok (false, s2) =>
              match checkToken .End s2 with
              | .error e => .error e
              | .ok (true, s3) => .ok ([term], s3)
              | .ok (false, s3) =>
                  match currentToken s3 with
                  | .error e => .error e
                  | .ok (t, _) =>
                      .error ("unexpected token '" ++ t.text ++
                        "' while expecting semicolon or end of input")

/-- `Parser.Parse`: build a lexer over the text (the builder mirrors the
selector twin's `Build`, whose source check `len(b.source) == 0` yields
the error `source is mandatory`), run `parseExpr`, and convert panics to
errors. The fuel `text.length + 1` strictly dominates every loop of the
recursive descent, since each iteration consumes input. -/
def parse (text : String) : Except String Expr :=
  if text.length = 0 then .error "source is mandatory"
  else
    match parseExpr (text.length + 1) ⟨text.toList, .defaultMode, none⟩ with
    | .error e => .error e
    | .ok (terms, _) => .ok ⟨terms⟩

/-- Canonical lowercase lexeme of each operator (spec section 3; the
`lte` lexeme belongs to `Lte`). -/
def opText : Operator → String
  | .Cont => "cont"
  | .Eq => "eq"
  | .Gt => "gt"
  | .Gte => "gte"
  | .In => "in"
  | .Lt => "lt"
  | .Lte => "lte"
  | .Ncont => "ncont"
  | .Neq => "neq"
  | .Nin => "nin"

/-- Modelled from the spec: the serializer's escape of one path-segment
character (spec section 4.5), also fixed by the expectations of
`internal/search/selector_test.go`. -/
def escapeSegmentChar (c : Char) : List Char :=
  if c = '~' then ['~', '0']
  else if c = '/' then ['~', '1']
  else if c = '@' then ['~', 'b']
  else if c = ',' then ['~', 'a']
  else [c]

/-- Escaped form of a whole character sequence. -/
def encChars (l : List Char) : List Char :=
  l.flatMap escapeSegmentChar

/-- Modelled from the spec: serializer emission of one path segment; the
whole segment `@key` passes through unescaped (spec section 4.5, test
entry "Dont't escape @ in @key"). -/
def encodeSegment (seg : String) : List Char :=
  if seg = "@key" then seg.toList
  else encChars seg.toList

/-- The serializer's escape of one value character: quotes are doubled,
everything else passes through. -/
def quoteEscChar (c : Char) : List Char :=
  if c = '\'' then ['\'', '\''] else [c]

/-- Escaped form of a whole value text. -/
def encQChars (l : List Char) : List Char :=
  l.flatMap quoteEscChar

/-- Modelled from the spec: serializer emission of one value, wrapped in
single quotes with internal quotes doubled (spec section 4.5). -/
def quoteValueChars (v : String) : List Char :=
  '\'' :: encQChars v.toList ++ ['\'']

/-- Joining character lists with a single separator character, as the
serializer does between path segments, values and terms. -/
def sepJoin (sep : Char) : List (List Char) → List Char
  | [] => []
  | [x] => x
  | x :: y :: rest => x ++ sep :: sepJoin sep (y :: rest)

/-- Serializer emission of a whole path: encoded segments joined by
slashes. -/
def encPath (path : List String) : List Char :=
  sepJoin '/' (path.map encodeSegment)

/-- Serializer emission of a whole value list: quoted values joined by
commas. -/
def encValues (vs : List String) : List Char :=
  sepJoin ',' (vs.map quoteValueChars)

/-- Modelled from the spec: serializer emission of one term,
`(op,seg/seg,'v','v')`, no whitespace (spec section 4.5, and the
expectations of `internal/search/selector_test.go`). -/
def serializeTermChars (t : Term) : List Char :=
  '(' :: (opText t.operator).toList ++ [','] ++
    encPath t.path ++ [','] ++ encValues t.values ++ [')']

/-- Modelled from the spec: serializer emission of an expression, terms
joined by semicolons (spec section 4.5). -/
def serializeExprChars (e : Expr) : List Char :=
  sepJoin ';' (e.terms.map serializeTermChars)

/-- `Expr.String()` / `Selector.String()`: the canonical text. -/
def serializeExpr (e : Expr) : String :=
  String.mk (serializeExprChars e)

/-- A raw identifier-continuation character of the default-mode DFA:
letter, digit or underscore (the S1 continuation set). -/
def rawIdentChar (c : Char) : Bool :=
  Selector.isLetter c || Selector.isDigit c || c = '_'

/-- The characters the lexer can only produce through an escape sequence
and the serializer always escapes, `@` aside: `~`, `/` and `,`. -/
def escCore (c : Char) : Bool :=
  c = '~' || c = '/' || c = ','

/-- States of the segment scanner: `PR` after a raw identifier character
(an identifier may stop here), `PE` after an escaped character or at the
very start (the next character must be able to restart the identifier
DFA from its S0 state). -/
inductive scanSt where
  | PR
  | PE
deriving DecidableEq, Repr

/-- Scanner characterising the path-segment texts the lexer interacts
with, parameterised by the state `atq` entered after an `@`.
`segScan .PR .PE l` accepts every segment text the default-mode lexer can
emit as one identifier (`@` may there be followed by anything, because a
raw `@` puts the DFA in its S1 state). `segScan .PE .PE l` accepts the
segment texts whose escaped form lexes back to the same identifier (there
`@` behaves like the always-escaped characters, because the serializer
emits it as `~b`). -/
def segScan (atq : scanSt) : scanSt → List Char → Bool
  | .PR, [] => true
  | .PE, [] => false
  | .PR, c :: cs =>
      if rawIdentChar c then segScan atq .PR cs
      else if c = '@' then segScan atq atq cs
      else if escCore c then segScan atq .PE cs
      else false
  | .PE, c :: cs =>
      if Selector.isLetter c || c = '_' then segScan atq .PR cs
      else if c = '@' then segScan atq atq cs
      else if escCore c then segScan atq .PE cs
      else false

/-- Does the list start with a character that may follow an escaped
character: non-empty and not starting with a digit? -/
def headSafe : List Char → Bool
  | [] => false
  | c :: _ => !(Selector.isDigit c)

/-- `@`-safety of a segment text: no `@` is the last character and no `@`
is immediately followed by a digit. These are exactly the segments whose
`~b` escape survives the lexer's return to S0 after an escape. -/
def atSafe : List Char → Bool
  | [] => true
  | c :: cs => (if c = '@' then headSafe cs else true) && atSafe cs

/-- `@`-safety of a segment string (see `atSafe`). -/
def atSafeStr (seg : String) : Bool :=
  atSafe seg.toList

/-- Segments accepted by the strict scanner: their serialized form lexes
back to the very same identifier. -/
def goodSeg (seg : String) : Prop :=
  segScan .PE .PE seg.toList = true

/-- Fuel needed by the recursive-descent loops of one term: its path
length for `parsePath`, one more than its value count for `parseValues`. -/
def needBound (t : Term) : Nat :=
  max t.path.length (t.values.length + 1)

/-- The lexer state corresponding to a scanner state: `PE` restarts the
identifier DFA at `S0`, `PR` continues it at `S1`. -/
def lexFromScan : scanSt → List Char → List Char →
    Except String (exprToken × List Char)
  | .PE, lexeme, cs => lexDefault .S0 lexeme cs
  | .PR, lexeme, cs => lexDefault .S1 lexeme cs

/-- Every `Identifier` token the default-mode lexer emits has a
producible-segment text (tokens of other symbols are unconstrained). -/
def tokOK (t : exprToken) : Prop :=
  t.symbol = .Identifier → segScan .PR .PE t.text.toList = true

/-- Parser-state invariant: the lookahead slot only ever holds tokens the
lexer produced. -/
def stateOK (s : PState) : Prop :=
  ∀ t, s.tok = some t → tokOK t

/-- What parsing guarantees about each term it returns: the operator is
one the lookup can produce (never `Lte`), the path is non-empty, and each
segment is a producible identifier text. -/
def termOK (t : Term) : Prop :=
  t.operator ≠ .Lte ∧ t.path ≠ [] ∧
    ∀ seg ∈ t.path, segScan .PR .PE seg.toList = true

end Filter

/-- Decidable equality of `Except` results, so that concrete runs of the
lexer and parser can be settled by `decide`. -/
instance exceptDecidableEq {ε α : Type} [DecidableEq ε] [DecidableEq α] :
    DecidableEq (Except ε α) := fun x y =>
  match x, y with
  | .ok a, .ok b =>
      if h : a = b then isTrue (by rw [h])
      else isFalse (by intro hc; cases hc; exact h rfl)
  | .ok _, .error _ => isFalse (by intro hc; cases hc)
  | .error _, .ok _ => isFalse (by intro hc; cases hc)
  | .error e, .error f =>
      if h : e = f then isTrue (by rw [h])
      else isFalse (by intro hc; cases hc; exact h rfl)

namespace Selector

/-- Helper: when the selector lexer returns an `End` token over a source
without embedded NUL characters, the whole input has been consumed. -/
theorem fetchTokenLoop_end_consumed :
    ∀ (cs : List Char) (st : lexState) (lexeme : List Char)
      (t : exprToken) (s' : List Char),
      '\x00' ∉ cs → fetchTokenLoop st lexeme cs = .ok (t, s') →
      t.symbol = .End → s' = [] ∧ t = ⟨.End, ""⟩ := by
  intro cs
  induction cs with
  | nil =>
      intro st lexeme t s' _ h hsym
      cases st <;> simp only [fetchTokenLoop] at h
      · simp only [Except.ok.injEq, Prod.mk.injEq] at h
        exact ⟨h.2.symm, h.1.symm⟩
      · simp only [Except.ok.injEq, Prod.mk.injEq] at h
        rw [← h.1] at hsym
        simp at hsym
      · simp at h
  | cons c cs ih =>
      intro st lexeme t s' hnul h hsym
      have hc : c ≠ '\x00' := fun he => hnul (he ▸ List.mem_cons_self c cs)
      have hnul' : '\x00' ∉ cs := fun hm => hnul (List.mem_cons_of_mem c hm)
      cases st <;> simp only [fetchTokenLoop] at h
      · split_ifs at h with h1 h2 h3 h4 h5
        · exact ih _ _ _ _ hnul' h hsym
        · exact ih _ _ _ _ hnul' h hsym
        · simp only [Except.ok.injEq, Prod.mk.injEq] at h
          rw [← h.1] at hsym
          simp at hsym
        · simp only [Except.ok.injEq, Prod.mk.injEq] at h
          rw [← h.1] at hsym
          simp at hsym
        · exact ih _ _ _ _ hnul' h hsym
      · split_ifs at h with h1 h2
        · exact ih _ _ _ _ hnul' h hsym
        · exact ih _ _ _ _ hnul' h hsym
        · simp only [Except.ok.injEq, Prod.mk.injEq] at h
          rw [← h.1] at hsym
          simp at hsym
      · split_ifs at h with h1 h2 h3
        · exact ih _ _ _ _ hnul' h hsym
        · exact ih _ _ _ _ hnul' h hsym
        · exact ih _ _ _ _ hnul' h hsym

end Selector

namespace Selector

/-- C10 (corrected): after `FetchToken` returns `End` over a NUL-free
source, every further call returns `End` again with no error: an `End`
answer means the buffer has been fully consumed, and fetching from the
empty buffer always yields `End`. -/
theorem C10_end_idempotent_without_nul :
    ∀ (s : List Char) (t : exprToken) (s' : List Char),
      '\x00' ∉ s → fetchToken s = .ok (t, s') → t.symbol = .End →
      fetchToken s' = .ok (t, s') := by
  intro s t s' hnul h hsym
  obtain ⟨h1, h2⟩ := fetchTokenLoop_end_consumed s .S0 [] t s' hnul h hsym
  subst h1
  subst h2
  rfl

/-- Witness for C10's amended theorem at the concrete source `" "`. -/
theorem C10_end_idempotent_witness :
    fetchToken [' '] = .ok (⟨.End, ""⟩, []) ∧
    fetchToken [] = .ok (⟨.End, ""⟩, []) := by
  refine ⟨rfl, ?_⟩
  exact C10_end_idempotent_without_nul [' '] ⟨.End, ""⟩ [] (by decide) rfl rfl

/-- C10 (counterexample): over the non-empty source `"\x00a"` the lexer
first returns `End` (consuming the NUL, which `readRune` cannot tell from
`io.EOF`) and the next call returns the identifier `a`, so `End` is not a
terminal answer for every non-empty source. -/
theorem C10_counterexample_nul_source :
    build (String.mk ['\x00', 'a']) = .ok ['\x00', 'a'] ∧
    fetchToken ['\x00', 'a'] = .ok (⟨.End, ""⟩, ['a']) ∧
    fetchToken ['a'] = .ok (⟨.Identifier, "a"⟩, []) ∧
    exprSymbol.Identifier ≠ exprSymbol.End := by
  exact ⟨rfl, rfl, rfl, by decide⟩

/-- C4 (confirmed): after decoding an escape the selector lexer is back in
state `S0` holding the partial lexeme, so a comma, slash or end of input
right after the escape produces the punctuation/End token and silently
drops the accumulated identifier text, while whitespace is skipped and the
identifier continues: `a~0,b` yields `Comma` then the identifier `b` (the
text `a~` is never emitted), `a~0/b` yields `Slash`, `a~0` yields `End`,
and `a~0 b` yields the single identifier `a~b`. -/
theorem C4_escape_returns_to_start_discarding :
    (∀ lexeme rest, fetchTokenLoop .S2 lexeme ('0' :: rest) =
      fetchTokenLoop .S0 (lexeme ++ ['~']) rest) ∧
    (∀ lexeme rest, fetchTokenLoop .S0 lexeme (',' :: rest) =
      .ok (⟨.Comma, ","⟩, rest)) ∧
    (∀ lexeme rest, fetchTokenLoop .S0 lexeme ('/' :: rest) =
      .ok (⟨.Slash, "/"⟩, rest)) ∧
    (∀ lexeme, fetchTokenLoop .S0 lexeme [] = .ok (⟨.End, ""⟩, [])) ∧
    (∀ lexeme rest, fetchTokenLoop .S0 lexeme (' ' :: rest) =
      fetchTokenLoop .S0 lexeme rest) ∧
    fetchToken "a~0,b".toList = .ok (⟨.Comma, ","⟩, ['b']) ∧
    fetchToken ['b'] = .ok (⟨.Identifier, "b"⟩, []) ∧
    fetchToken "a~0/b".toList = .ok (⟨.Slash, "/"⟩, ['b']) ∧
    fetchToken "a~0".toList = .ok (⟨.End, ""⟩, []) ∧
    fetchToken "a~0 b".toList = .ok (⟨.Identifier, "a~b"⟩, []) := by
  exact ⟨fun _ _ => rfl, fun _ _ => rfl, fun _ _ => rfl, fun _ => rfl,
    fun _ _ => rfl, rfl, rfl, rfl, rfl, rfl⟩

end Selector

namespace Filter

/-- C1 (code bug): the parser's operator lookup maps the lexeme `lte` (in
any capitalisation, via `strings.ToLower`) to `Gt`, not to `Lte`; parsing
`(lte,a,'x')` yields a term whose operator is `Gt`. -/
theorem C1_lte_lookup_returns_gt :
    operatorOfName "lte" = .ok .Gt ∧
    operatorOfName "LTE" = .ok .Gt ∧
    operatorOfName "Lte" = .ok .Gt ∧
    parse "(lte,a,'x')" = .ok ⟨[⟨.Gt, ["a"], ["x"]⟩]⟩ ∧
    Operator.Gt ≠ Operator.Lte := by
  exact ⟨by decide, by decide, by decide, by decide, by decide⟩

/-- C2 (confirmed): in default mode the escape `~b` decodes to `@` inside
an identifier — `my~battr` lexes to the identifier `my@attr` — and the S2
escape state errors with "unknown escape sequence" exactly for the
characters outside `{0,1,a,b}`, while the four table characters continue
the scan with the decoded character appended. -/
theorem C2_escape_b_decodes_to_at :
    fetchToken .defaultMode "my~battr".toList =
      .ok (⟨.Identifier, "my@attr"⟩, []) ∧
    decodeEscape 'b' = some '@' ∧
    (∀ c, decodeEscape c = none ↔ (c ≠ '0' ∧ c ≠ '1' ∧ c ≠ 'a' ∧ c ≠ 'b')) ∧
    (∀ lexeme c cs, decodeEscape c = none →
      lexDefault .S2 lexeme (c :: cs) =
        .error ("unknown escape sequence '~" ++ String.mk [c] ++ "'")) ∧
    (∀ lexeme c d cs, decodeEscape c = some d →
      lexDefault .S2 lexeme (c :: cs) = lexDefault .S0 (lexeme ++ [d]) cs) := by
  refine ⟨rfl, rfl, ?_, ?_, ?_⟩
  · intro c
    simp only [decodeEscape]
    split_ifs with h1 h2 h3 h4 <;> simp_all
  · intro lexeme c cs h
    simp [lexDefault, h]
  · intro lexeme c d cs h
    simp [lexDefault, h]

/-- Witness for C2 at the concrete escapes `~q` (rejected) and `~b`
(decoded to `@`). -/
theorem C2_escape_witness :
    lexDefault .S2 [] ['q'] = .error "unknown escape sequence '~q'" ∧
    lexDefault .S2 ['m'] ['b'] = lexDefault .S0 ['m', '@'] [] := by
  constructor
  · exact C2_escape_b_decodes_to_at.2.2.2.1 [] 'q' [] (by decide)
  · exact C2_escape_b_decodes_to_at.2.2.2.2 ['m'] 'b' '@' [] (by decide)

/-- C5 (counterexample): parsing the empty string does not return the
error message the spec promises. -/
theorem C5_counterexample_empty_input :
    parse "" ≠ .error "expected operator or left parenthesis" := by
  decide

/-- C5 (amended): parsing the empty string returns an error — the lexer
builder's `source is mandatory` check fires before any token is read — and
no expression; errors in this code carry no position. -/
theorem C5_empty_input_source_mandatory :
    parse "" = .error "source is mandatory" := rfl

/-- C6 (confirmed): for every input string `Parse` returns either an
expression or an error (panics raised inside the parse task are recovered
and surfaced as errors — modelled by totality of `parse` into `Except`);
the error case carries no partial expression. -/
theorem C6_parse_total_no_partial :
    ∀ text : String,
      (∃ e, parse text = .ok e) ∨ (∃ msg, parse text = .error msg) := by
  intro text
  cases h : parse text with
  | ok e => exact Or.inl ⟨e, rfl⟩
  | error m => exact Or.inr ⟨m, rfl⟩

/-- C7 (confirmed): if the token right after a term's second comma is the
right parenthesis, `parseOptionalValues` returns the empty value list (and
leaves the state untouched); concretely, `(eq,a,)` parses to one `Eq` term
with path `a` and no values. -/
theorem C7_rparen_gives_empty_values :
    (∀ (fuel : Nat) (s : PState) (t : exprToken), s.tok = some t →
      t.symbol = .RightParenthesis → parseOptionalValues fuel s = .ok ([], s)) ∧
    parse "(eq,a,)" = .ok ⟨[⟨.Eq, ["a"], []⟩]⟩ := by
  constructor
  · intro fuel s t htok hsym
    simp [parseOptionalValues, checkToken, currentToken, htok, hsym]
  · decide

/-- Witness for C7 at a concrete state holding a right-parenthesis
lookahead. -/
theorem C7_rparen_witness :
    parseOptionalValues 1 ⟨[], .valuesMode, some ⟨.RightParenthesis, ")"⟩⟩ =
      .ok ([], ⟨[], .valuesMode, some ⟨.RightParenthesis, ")"⟩⟩) ∧
    parse "(eq,a,)" = .ok ⟨[⟨.Eq, ["a"], []⟩]⟩ := by
  constructor
  · exact C7_rparen_gives_empty_values.1 1 _ ⟨.RightParenthesis, ")"⟩ rfl rfl
  · exact C7_rparen_gives_empty_values.2

end Filter

namespace Filter

/-- A letter is not whitespace (`isWhitespace` is a four-character set,
none of which is a letter). -/
theorem isSpace_false_of_isLetter (c : Char)
    (h : Selector.isLetter c = true) : Selector.isSpace c = false := by
  cases hsp : Selector.isSpace c
  · rfl
  · exfalso
    have hmem : c = ' ' ∨ (c = '\t' ∨ (c = '\r' ∨ c = '\n')) := by
      simpa [Selector.isSpace, Char.isWhitespace, or_assoc] using hsp
    rcases hmem with h1 | h1 | h1 | h1 <;> subst h1 <;>
      exact absurd h (by decide)

/-- Rebuilding a string from its character list gives it back. -/
theorem strMkToList (s : String) : String.mk s.toList = s := by
  cases s
  rfl

/-- A raw identifier character is never in the serializer's escape set. -/
theorem escapeSegmentChar_raw (c : Char) (h : rawIdentChar c = true) :
    escapeSegmentChar c = [c] := by
  unfold escapeSegmentChar
  split_ifs with h1 h2 h3 h4
  · subst h1; exact absurd h (by decide)
  · subst h2; exact absurd h (by decide)
  · subst h3; exact absurd h (by decide)
  · subst h4; exact absurd h (by decide)
  · rfl

/-- A letter or underscore is never in the serializer's escape set. -/
theorem escapeSegmentChar_start (c : Char)
    (h : (Selector.isLetter c || c = '_') = true) :
    escapeSegmentChar c = [c] := by
  rcases Bool.or_eq_true_iff.mp h with h1 | h1
  · exact escapeSegmentChar_raw c (by simp [rawIdentChar, h1])
  · rw [show c = '_' by simpa using h1]
    rfl

/-- S1 keeps scanning on a raw identifier character. -/
theorem lexDefault_S1_raw (c : Char) (lexeme cs : List Char)
    (h : rawIdentChar c = true) :
    lexDefault .S1 lexeme (c :: cs) = lexDefault .S1 (lexeme ++ [c]) cs := by
  have h' : (Selector.isLetter c || Selector.isDigit c || c = '_') = true := by
    simpa [rawIdentChar] using h
  simp [lexDefault, h']

/-- S0 starts an identifier on a letter, underscore or `@`. -/
theorem lexDefault_S0_start (c : Char) (lexeme cs : List Char)
    (h : (Selector.isLetter c || c = '_' || c = '@') = true)
    (hsp : Selector.isSpace c = false) :
    lexDefault .S0 lexeme (c :: cs) = lexDefault .S1 (lexeme ++ [c]) cs := by
  simp [lexDefault, h, hsp]

/-- S2 decodes a table escape and returns to S0 with it appended. -/
theorem lexDefault_S2_decoded (c d : Char) (lexeme cs : List Char)
    (h : decodeEscape c = some d) :
    lexDefault .S2 lexeme (c :: cs) = lexDefault .S0 (lexeme ++ [d]) cs := by
  simp [lexDefault, h]

/-- S1 stops in front of a comma, pushing it back and emitting the
identifier. -/
theorem lexDefault_S1_comma (lexeme rest : List Char) :
    lexDefault .S1 lexeme (',' :: rest) =
      .ok (⟨.Identifier, String.mk lexeme⟩, ',' :: rest) := rfl

/-- S1 stops in front of a slash, pushing it back and emitting the
identifier. -/
theorem lexDefault_S1_slash (lexeme rest : List Char) :
    lexDefault .S1 lexeme ('/' :: rest) =
      .ok (⟨.Identifier, String.mk lexeme⟩, '/' :: rest) := rfl

/-- From either identifier state, a two-character escape sequence decodes
and lands in S0 with the decoded character appended. -/
theorem lexFromScan_tilde (q : scanSt) (x c : Char) (lexeme cs : List Char)
    (hx : decodeEscape x = some c) :
    lexFromScan q lexeme ('~' :: x :: cs) = lexDefault .S0 (lexeme ++ [c]) cs := by
  cases q
  · rw [lexFromScan,
      show lexDefault .S1 lexeme ('~' :: x :: cs) =
        lexDefault .S2 lexeme (x :: cs) from rfl,
      lexDefault_S2_decoded x c _ _ hx]
  · rw [lexFromScan,
      show lexDefault .S0 lexeme ('~' :: x :: cs) =
        lexDefault .S2 lexeme (x :: cs) from rfl,
      lexDefault_S2_decoded x c _ _ hx]

/-- Scanning the escaped form of a strict-scanner-accepted character list
drives the identifier DFA from the scanner state's lexer state to S1 with
the list appended to the lexeme. -/
theorem segScan_run (l : List Char) :
    ∀ (q : scanSt) (lexeme rest : List Char),
      segScan .PE q l = true →
      lexFromScan q lexeme (encChars l ++ rest) =
        lexDefault .S1 (lexeme ++ l) rest := by
  induction l with
  | nil =>
      intro q lexeme rest h
      cases q
      · simp [lexFromScan, encChars]
      · simp [segScan] at h
  | cons c l' ih =>
      intro q lexeme rest h
      have henc : encChars (c :: l') ++ rest =
          escapeSegmentChar c ++ (encChars l' ++ rest) := by
        simp [encChars, List.append_assoc]
      have hfin : ∀ d : Char,
          lexDefault .S0 (lexeme ++ [d]) (encChars l' ++ rest) =
            lexDefault .S1 (lexeme ++ [d] ++ l') rest →
          lexDefault .S0 (lexeme ++ [d]) (encChars l' ++ rest) =
            lexDefault .S1 (lexeme ++ d :: l') rest := by
        intro d hstep
        rw [hstep, List.append_assoc]
        rfl
      cases q
      · -- q = PR : lexer in S1
        rw [segScan] at h
        split_ifs at h with h1 h2 h3
        · -- raw identifier character
          rw [henc] at *
          rw [lexFromScan, escapeSegmentChar_raw c h1,
            List.singleton_append, lexDefault_S1_raw c _ _ h1]
          have hrec := ih .PR (lexeme ++ [c]) rest h
          simp only [lexFromScan] at hrec
          rw [hrec, List.append_assoc]
          rfl
        · -- '@', emitted as ~b
          subst h2
          rw [henc, show escapeSegmentChar '@' = ['~', 'b'] from rfl,
            show (['~', 'b'] : List Char) ++ (encChars l' ++ rest) =
              '~' :: 'b' :: (encChars l' ++ rest) from rfl,
            lexFromScan_tilde .PR 'b' '@' lexeme _ rfl]
          have hrec := ih .PE (lexeme ++ ['@']) rest h
          simp only [lexFromScan] at hrec
          exact hfin '@' hrec
        · -- ~ / , : always escaped
          have hcore : c = '~' ∨ c = '/' ∨ c = ',' := by
            simpa [escCore, or_assoc] using h3
          have hrec := ih .PE (lexeme ++ [c]) rest h
          simp only [lexFromScan] at hrec
          rcases hcore with h4 | h4 | h4
          · subst h4
            rw [henc, show escapeSegmentChar '~' = ['~', '0'] from rfl,
              show (['~', '0'] : List Char) ++ (encChars l' ++ rest) =
                '~' :: '0' :: (encChars l' ++ rest) from rfl,
              lexFromScan_tilde .PR '0' '~' lexeme _ rfl]
            exact hfin '~' hrec
          · subst h4
            rw [henc, show escapeSegmentChar '/' = ['~', '1'] from rfl,
              show (['~', '1'] : List Char) ++ (encChars l' ++ rest) =
                '~' :: '1' :: (encChars l' ++ rest) from rfl,
              lexFromScan_tilde .PR '1' '/' lexeme _ rfl]
            exact hfin '/' hrec
          · subst h4
            rw [henc, show escapeSegmentChar ',' = ['~', 'a'] from rfl,
              show (['~', 'a'] : List Char) ++ (encChars l' ++ rest) =
                '~' :: 'a' :: (encChars l' ++ rest) from rfl,
              lexFromScan_tilde .PR 'a' ',' lexeme _ rfl]
            exact hfin ',' hrec
      · -- q = PE : lexer in S0
        rw [segScan] at h
        split_ifs at h with h1 h2 h3
        · -- letter or underscore
          have hsp : Selector.isSpace c = false := by
            rcases Bool.or_eq_true_iff.mp h1 with h4 | h4
            · exact isSpace_false_of_isLetter c h4
            · rw [show c = '_' by simpa using h4]
              rfl
          have hstart : (Selector.isLetter c || c = '_' || c = '@') = true := by
            rcases Bool.or_eq_true_iff.mp h1 with h4 | h4 <;> simp [h4]
          rw [henc, lexFromScan, escapeSegmentChar_start c h1,
            List.singleton_append, lexDefault_S0_start c _ _ hstart hsp]
          have hrec := ih .PR (lexeme ++ [c]) rest h
          simp only [lexFromScan] at hrec
          rw [hrec, List.append_assoc]
          rfl
        · -- '@', emitted as ~b
          subst h2
          rw [henc, show escapeSegmentChar '@' = ['~', 'b'] from rfl,
            show (['~', 'b'] : List Char) ++ (encChars l' ++ rest) =
              '~' :: 'b' :: (encChars l' ++ rest) from rfl,
            lexFromScan_tilde .PE 'b' '@' lexeme _ rfl]
          have hrec := ih .PE (lexeme ++ ['@']) rest h
          simp only [lexFromScan] at hrec
          exact hfin '@' hrec
        · -- ~ / , : always escaped
          have hcore : c = '~' ∨ c = '/' ∨ c = ',' := by
            simpa [escCore, or_assoc] using h3
          have hrec := ih .PE (lexeme ++ [c]) rest h
          simp only [lexFromScan] at hrec
          rcases hcore with h4 | h4 | h4
          · subst h4
            rw [henc, show escapeSegmentChar '~' = ['~', '0'] from rfl,
              show (['~', '0'] : List Char) ++ (encChars l' ++ rest) =
                '~' :: '0' :: (encChars l' ++ rest) from rfl,
              lexFromScan_tilde .PE '0' '~' lexeme _ rfl]
            exact hfin '~' hrec
          · subst h4
            rw [henc, show escapeSegmentChar '/' = ['~', '1'] from rfl,
              show (['~', '1'] : List Char) ++ (encChars l' ++ rest) =
                '~' :: '1' :: (encChars l' ++ rest) from rfl,
              lexFromScan_tilde .PE '1' '/' lexeme _ rfl]
            exact hfin '/' hrec
          · subst h4
            rw [henc, show escapeSegmentChar ',' = ['~', 'a'] from rfl,
              show (['~', 'a'] : List Char) ++ (encChars l' ++ rest) =
                '~' :: 'a' :: (encChars l' ++ rest) from rfl,
              lexFromScan_tilde .PE 'a' ',' lexeme _ rfl]
            exact hfin ',' hrec

/-- Lexing the serialized form of a good segment, followed by a comma or
slash, emits exactly that segment as one identifier and pushes the
delimiter back. -/
theorem lex_encoded_segment (seg : String) (d : Char) (rest : List Char)
    (hgood : goodSeg seg) (hd : d = ',' ∨ d = '/') :
    lexDefault .S0 [] (encodeSegment seg ++ d :: rest) =
      .ok (⟨.Identifier, seg⟩, d :: rest) := by
  by_cases hkey : seg = "@key"
  · subst hkey
    rcases hd with h | h <;> subst h
    · rfl
    · rfl
  · rw [encodeSegment, if_neg hkey]
    have hrun := segScan_run seg.toList .PE [] (d :: rest) hgood
    simp only [lexFromScan] at hrun
    rw [hrun, List.nil_append]
    rcases hd with h | h <;> subst h
    · rw [lexDefault_S1_comma, strMkToList]
    · rw [lexDefault_S1_slash, strMkToList]

/-- Transfer from the lax scanner to the strict scanner under
`@`-safety: a producible segment whose `@`s are all followed by
non-digits is accepted by the strict scanner, hence reparsable. -/
theorem segScan_strict_of_atSafe (l : List Char) :
    (segScan .PR .PR l = true → atSafe l = true → segScan .PE .PR l = true) ∧
    (segScan .PR .PR l = true → atSafe l = true → headSafe l = true →
      segScan .PE .PE l = true) ∧
    (segScan .PR .PE l = true → atSafe l = true → segScan .PE .PE l = true) := by
  induction l with
  | nil =>
      exact ⟨fun h _ => h, fun _ _ h => by simp [headSafe] at h, fun h _ => h⟩
  | cons c cs ih =>
      obtain ⟨ihA, ihB, ihC⟩ := ih
      have hsafe : atSafe (c :: cs) = true →
          atSafe cs = true ∧ (c = '@' → headSafe cs = true) := by
        intro hs
        rw [atSafe] at hs
        obtain ⟨h1, h2⟩ := Bool.and_eq_true_iff.mp hs
        refine ⟨h2, fun hc => ?_⟩
        rw [if_pos hc] at h1
        exact h1
      have hnsCore : ∀ h1 : ¬ rawIdentChar c = true,
          ¬ (Selector.isLetter c || c = '_') = true := by
        intro h1 hcon
        rcases Bool.or_eq_true_iff.mp hcon with h4 | h4
        · exact h1 (by simp [rawIdentChar, h4])
        · exact h1 (by simp [rawIdentChar, h4])
      refine ⟨?_, ?_, ?_⟩
      · intro hl hs
        obtain ⟨hs', hat⟩ := hsafe hs
        rw [segScan] at hl ⊢
        split_ifs at hl ⊢ with h1 h2 h3
        · exact ihA hl hs'
        · exact ihB hl hs' (hat h2)
        · exact ihC hl hs'
      · intro hl hs hhd
        obtain ⟨hs', hat⟩ := hsafe hs
        have hhd' : Selector.isDigit c = false := by
          simpa [headSafe] using hhd
        rw [segScan] at hl
        rw [segScan]
        split_ifs at hl with h1 h2 h3
        · have hstart : (Selector.isLetter c || c = '_') = true := by
            rcases Bool.or_eq_true_iff.mp
                (show (Selector.isLetter c || Selector.isDigit c ||
                  decide (c = '_')) = true by simpa [rawIdentChar] using h1)
              with h4 | h4
            · rcases Bool.or_eq_true_iff.mp h4 with h5 | h5
              · simp [h5]
              · rw [h5] at hhd'
                cases hhd'
            · simp [of_decide_eq_true h4]
          rw [if_pos hstart]
          exact ihA hl hs'
        · have hns : ¬ (Selector.isLetter c || c = '_') = true := by
            subst h2
            decide
          rw [if_neg hns, if_pos h2]
          exact ihB hl hs' (hat h2)
        · rw [if_neg (hnsCore h1), if_neg h2, if_pos h3]
          exact ihC hl hs'
      · intro hl hs
        obtain ⟨hs', hat⟩ := hsafe hs
        rw [segScan] at hl ⊢
        split_ifs at hl ⊢ with h1 h2 h3
        · exact ihA hl hs'
        · exact ihB hl hs' (hat h2)
        · exact ihC hl hs'

/-- Lexing the quote-doubled form of a value text, followed by the closing
quote and a rest that does not begin with a quote, accumulates exactly the
text. -/
theorem lexStringBody_run (l : List Char) :
    ∀ (acc rest : List Char), rest.head? ≠ some '\'' →
      lexStringBody acc (encQChars l ++ '\'' :: rest) =
        .ok (String.mk (acc ++ l), rest) := by
  induction l with
  | nil =>
      intro acc rest hr
      show lexStringBody acc ('\'' :: rest) = _
      cases rest with
      | nil => simp [lexStringBody]
      | cons c2 cs2 =>
          have hc2 : ¬ c2 = '\'' := by
            intro h
            exact hr (by rw [h]; rfl)
          simp [lexStringBody, hc2]
  | cons c l' ih =>
      intro acc rest hr
      by_cases hc : c = '\''
      · subst hc
        have henc : encQChars ('\'' :: l') ++ '\'' :: rest =
            '\'' :: '\'' :: (encQChars l' ++ '\'' :: rest) := by
          simp [encQChars, quoteEscChar, List.append_assoc]
        rw [henc]
        show lexStringBody (acc ++ ['\'']) (encQChars l' ++ '\'' :: rest) = _
        rw [ih (acc ++ ['\'']) rest hr, List.append_assoc]
        rfl
      · have henc : encQChars (c :: l') ++ '\'' :: rest =
            c :: (encQChars l' ++ '\'' :: rest) := by
          simp [encQChars, quoteEscChar, hc, List.append_assoc]
        rw [henc]
        have hstep : lexStringBody acc (c :: (encQChars l' ++ '\'' :: rest)) =
            lexStringBody (acc ++ [c]) (encQChars l' ++ '\'' :: rest) := by
          rw [lexStringBody.eq_def]
          simp [hc]
        rw [hstep, ih (acc ++ [c]) rest hr, List.append_assoc]
        rfl

/-- The values-mode lexer turns a serialized value followed by a
non-quote rest into one `String` token carrying the original text. -/
theorem lexValues_string (v : String) (rest : List Char)
    (hr : rest.head? ≠ some '\'') :
    lexValues (quoteValueChars v ++ rest) = .ok (⟨.String, v⟩, rest) := by
  have h1 : quoteValueChars v ++ rest =
      '\'' :: (encQChars v.toList ++ '\'' :: rest) := by
    simp [quoteValueChars, List.append_assoc]
  have hstep : lexValues ('\'' :: (encQChars v.toList ++ '\'' :: rest)) =
      (match lexStringBody [] (encQChars v.toList ++ '\'' :: rest) with
        | .error e => .error e
        | .ok (txt, r) => .ok (⟨.String, txt⟩, r)) := rfl
  rw [h1, hstep, lexStringBody_run v.toList [] rest hr]
  simp [strMkToList]

/-- S0 turns a leading comma into a `Comma` token. -/
theorem lexDefault_S0_comma (rest : List Char) :
    lexDefault .S0 [] (',' :: rest) = .ok (⟨.Comma, ","⟩, rest) := rfl

/-- S0 turns a leading slash into a `Slash` token. -/
theorem lexDefault_S0_slash (rest : List Char) :
    lexDefault .S0 [] ('/' :: rest) = .ok (⟨.Slash, "/"⟩, rest) := rfl

/-- S0 turns a leading semicolon into a `Semicolon` token. -/
theorem lexDefault_S0_semicolon (rest : List Char) :
    lexDefault .S0 [] (';' :: rest) = .ok (⟨.Semicolon, ";"⟩, rest) := rfl

/-- S0 turns a leading left parenthesis into a `LeftParenthesis` token. -/
theorem lexDefault_S0_lparen (rest : List Char) :
    lexDefault .S0 [] ('(' :: rest) =
      .ok (⟨.LeftParenthesis, "("⟩, rest) := rfl

/-- S0 returns `End` at the end of the input. -/
theorem lexDefault_S0_end : lexDefault .S0 [] ([] : List Char) =
    .ok (⟨.End, ""⟩, []) := rfl

/-- Values mode turns a leading comma into a `Comma` token. -/
theorem lexValues_comma (rest : List Char) :
    lexValues (',' :: rest) = .ok (⟨.Comma, ","⟩, rest) := rfl

/-- Values mode turns a leading right parenthesis into a
`RightParenthesis` token. -/
theorem lexValues_rparen (rest : List Char) :
    lexValues (')' :: rest) = .ok (⟨.RightParenthesis, ")"⟩, rest) := rfl

/-- `currentToken` behaves the same on a state about to fetch a token and
on the state that already holds that token. -/
theorem currentToken_prefetch (m : exprMode) (cs r : List Char)
    (t : exprToken) (h : fetchToken m cs = .ok (t, r)) :
    currentToken ⟨cs, m, none⟩ = currentToken ⟨r, m, some t⟩ := by
  simp [currentToken, h]

/-- `parseIdentifier` only looks at the state through `currentToken`. -/
theorem parseIdentifier_congr (s₁ s₂ : PState)
    (h : currentToken s₁ = currentToken s₂) :
    parseIdentifier s₁ = parseIdentifier s₂ := by
  rw [parseIdentifier, parseIdentifier, h]

/-- `parseValue` only looks at the state through `currentToken`. -/
theorem parseValue_congr (s₁ s₂ : PState)
    (h : currentToken s₁ = currentToken s₂) :
    parseValue s₁ = parseValue s₂ := by
  rw [parseValue, parseValue, h]

/-- `consumeToken` only looks at the state through `currentToken`. -/
theorem consumeToken_congr (sym : exprSymbol) (s₁ s₂ : PState)
    (h : currentToken s₁ = currentToken s₂) :
    consumeToken sym s₁ = consumeToken sym s₂ := by
  rw [consumeToken, consumeToken, h]

/-- `parsePath` only looks at the initial state through
`parseIdentifier`. -/
theorem parsePath_congr (fuel : Nat) (s₁ s₂ : PState)
    (h : parseIdentifier s₁ = parseIdentifier s₂) :
    parsePath (Nat.succ fuel) s₁ = parsePath (Nat.succ fuel) s₂ := by
  rw [parsePath, parsePath, h]

/-- `parseValues` only looks at the initial state through `parseValue`. -/
theorem parseValues_congr (fuel : Nat) (s₁ s₂ : PState)
    (h : parseValue s₁ = parseValue s₂) :
    parseValues (Nat.succ fuel) s₁ = parseValues (Nat.succ fuel) s₂ := by
  rw [parseValues, parseValues, h]

/-- `parseTerm` only looks at the initial state through the opening
`consumeToken`. -/
theorem parseTerm_congr (fuel : Nat) (s₁ s₂ : PState)
    (h : consumeToken .LeftParenthesis s₁ = consumeToken .LeftParenthesis s₂) :
    parseTerm fuel s₁ = parseTerm fuel s₂ := by
  rw [parseTerm, parseTerm, h]

/-- `parseExpr` only looks at the initial state through `parseTerm`. -/
theorem parseExpr_congr (fuel : Nat) (s₁ s₂ : PState)
    (h : parseTerm (Nat.succ fuel) s₁ = parseTerm (Nat.succ fuel) s₂) :
    parseExpr (Nat.succ fuel) s₁ = parseExpr (Nat.succ fuel) s₂ := by
  rw [parseExpr, parseExpr, h]

set_option maxHeartbeats 1000000 in
/-- The operator lookup never returns `Lte` (the `"lte"` entry of the
switch returns `Gt`). -/
theorem operatorOfName_ne_lte (name : String) (op : Operator)
    (h : operatorOfName name = .ok op) : op ≠ .Lte := by
  simp only [operatorOfName] at h
  split_ifs at h
  all_goals
    simp only [Except.ok.injEq] at h
    subst h
    intro hc
    exact nomatch hc

/-- Lexing an operator's canonical lexeme followed by a comma gives one
identifier token. -/
theorem lex_opText (op : Operator) (rest : List Char) :
    lexDefault .S0 [] ((opText op).toList ++ ',' :: rest) =
      .ok (⟨.Identifier, opText op⟩, ',' :: rest) := by
  cases op <;> rfl

/-- Looking the canonical lexeme back up returns the operator itself, for
every operator the lookup can produce (`Lte` cannot). -/
theorem operatorOfName_opText (op : Operator) (hne : op ≠ .Lte) :
    operatorOfName (opText op) = .ok op := by
  cases op <;> first | rfl | exact absurd rfl hne

/-- `parseIdentifier` on a state whose input starts with an encoded good
segment followed by a delimiter consumes exactly that identifier. -/
theorem parseIdentifier_encSeg (seg : String) (d : Char) (rest : List Char)
    (hgood : goodSeg seg) (hd : d = ',' ∨ d = '/') :
    parseIdentifier ⟨encodeSegment seg ++ d :: rest, .defaultMode, none⟩ =
      .ok (seg, ⟨d :: rest, .defaultMode, none⟩) := by
  have hfetch : fetchToken .defaultMode (encodeSegment seg ++ d :: rest) =
      .ok (⟨.Identifier, seg⟩, d :: rest) :=
    lex_encoded_segment seg d rest hgood hd
  simp [parseIdentifier, currentToken, consumeToken, hfetch]

/-- Driving `parsePath` over an encoded non-empty path of good segments
followed by a comma returns exactly that path, with the comma fetched into
the lookahead slot. -/
theorem parsePath_run (path : List String) :
    ∀ (fuel : Nat) (rest₀ : List Char) (s : PState),
      path ≠ [] → (∀ seg ∈ path, goodSeg seg) → path.length ≤ fuel →
      parseIdentifier s =
        parseIdentifier ⟨encPath path ++ ',' :: rest₀, .defaultMode, none⟩ →
      parsePath fuel s =
        .ok (path, ⟨rest₀, .defaultMode, some ⟨.Comma, ","⟩⟩) := by
  induction path with
  | nil =>
      intro _ _ _ hne
      exact absurd rfl hne
  | cons seg tail ih =>
      intro fuel rest₀ s _ hgood hfuel hs
      obtain ⟨fuel, rfl⟩ : ∃ f, fuel = f + 1 :=
        ⟨fuel - 1, by simp at hfuel; omega⟩
      cases tail with
      | nil =>
          have hid : parseIdentifier
              ⟨encPath [seg] ++ ',' :: rest₀, .defaultMode, none⟩ =
              .ok (seg, ⟨',' :: rest₀, .defaultMode, none⟩) := by
            rw [show encPath [seg] = encodeSegment seg from rfl]
            exact parseIdentifier_encSeg seg ',' rest₀ (hgood seg (by simp))
              (Or.inl rfl)
          rw [parsePath, hs, hid]
          rfl
      | cons seg2 t' =>
          have hid : parseIdentifier
              ⟨encPath (seg :: seg2 :: t') ++ ',' :: rest₀, .defaultMode, none⟩ =
              .ok (seg,
                ⟨'/' :: (encPath (seg2 :: t') ++ ',' :: rest₀),
                  .defaultMode, none⟩) := by
            rw [show encPath (seg :: seg2 :: t') ++ ',' :: rest₀ =
                encodeSegment seg ++ '/' :: (encPath (seg2 :: t') ++ ',' :: rest₀) by
              simp [encPath, sepJoin, List.append_assoc]]
            exact parseIdentifier_encSeg seg '/' _ (hgood seg (by simp))
              (Or.inr rfl)
          have hfetch2 : ∃ r2,
              fetchToken .defaultMode (encPath (seg2 :: t') ++ ',' :: rest₀) =
                .ok (⟨.Identifier, seg2⟩, r2) := by
            cases t' with
            | nil =>
                refine ⟨',' :: rest₀, ?_⟩
                rw [show encPath [seg2] ++ ',' :: rest₀ =
                    encodeSegment seg2 ++ ',' :: rest₀ from rfl]
                exact lex_encoded_segment seg2 ',' rest₀ (hgood seg2 (by simp))
                  (Or.inl rfl)
            | cons seg3 t'' =>
                refine ⟨'/' :: (encPath (seg3 :: t'') ++ ',' :: rest₀), ?_⟩
                rw [show encPath (seg2 :: seg3 :: t'') ++ ',' :: rest₀ =
                    encodeSegment seg2 ++
                      '/' :: (encPath (seg3 :: t'') ++ ',' :: rest₀) by
                  simp [encPath, sepJoin, List.append_assoc]]
                exact lex_encoded_segment seg2 '/' _ (hgood seg2 (by simp))
                  (Or.inr rfl)
          obtain ⟨r2, hfetch2⟩ := hfetch2
          have hcheck : checkToken .Slash
              ⟨'/' :: (encPath (seg2 :: t') ++ ',' :: rest₀), .defaultMode, none⟩ =
              .ok (true, ⟨encPath (seg2 :: t') ++ ',' :: rest₀,
                .defaultMode, some ⟨.Slash, "/"⟩⟩) := rfl
          have hfetchNew : fetchNew ⟨encPath (seg2 :: t') ++ ',' :: rest₀,
              .defaultMode, some ⟨.Slash, "/"⟩⟩ =
              .ok ⟨r2, .defaultMode, some ⟨.Identifier, seg2⟩⟩ := by
            simp [fetchNew, hfetch2]
          have hrec : parsePath fuel
              ⟨r2, .defaultMode, some ⟨.Identifier, seg2⟩⟩ =
              .ok (seg2 :: t', ⟨rest₀, .defaultMode, some ⟨.Comma, ","⟩⟩) := by
            apply ih fuel rest₀ _ (by simp)
              (fun x hx => hgood x (List.mem_cons_of_mem seg hx))
              (by simp at hfuel ⊢; omega)
            exact parseIdentifier_congr _ _
              ((currentToken_prefetch .defaultMode _ r2 _ hfetch2).symm)
          simp only [parsePath, hs, hid, hcheck, hfetchNew, hrec]

/-- `parseValue` on a state whose input starts with a serialized value
followed by a delimiter consumes exactly that value text. -/
theorem parseValue_encVal (v : String) (d : Char) (rest : List Char)
    (hd : d = ',' ∨ d = ')') :
    parseValue ⟨quoteValueChars v ++ d :: rest, .valuesMode, none⟩ =
      .ok (v, ⟨d :: rest, .valuesMode, none⟩) := by
  have hr : (d :: rest).head? ≠ some '\'' := by
    rcases hd with h | h <;> subst h <;> simp
  have hfetch : fetchToken .valuesMode (quoteValueChars v ++ d :: rest) =
      .ok (⟨.String, v⟩, d :: rest) := lexValues_string v (d :: rest) hr
  simp [parseValue, currentToken, consumeToken, hfetch]

/-- Driving `parseValues` over a serialized non-empty value list followed
by a right parenthesis returns exactly those values, with the parenthesis
fetched into the lookahead slot. -/
theorem parseValues_run (vs : List String) :
    ∀ (fuel : Nat) (rest₀ : List Char) (s : PState),
      vs ≠ [] → vs.length ≤ fuel →
      parseValue s =
        parseValue ⟨encValues vs ++ ')' :: rest₀, .valuesMode, none⟩ →
      parseValues fuel s =
        .ok (vs, ⟨rest₀, .valuesMode, some ⟨.RightParenthesis, ")"⟩⟩) := by
  induction vs with
  | nil =>
      intro _ _ _ hne
      exact absurd rfl hne
  | cons v tail ih =>
      intro fuel rest₀ s _ hfuel hs
      obtain ⟨fuel, rfl⟩ : ∃ f, fuel = f + 1 :=
        ⟨fuel - 1, by simp at hfuel; omega⟩
      cases tail with
      | nil =>
          have hid : parseValue
              ⟨encValues [v] ++ ')' :: rest₀, .valuesMode, none⟩ =
              .ok (v, ⟨')' :: rest₀, .valuesMode, none⟩) := by
            rw [show encValues [v] = quoteValueChars v from rfl]
            exact parseValue_encVal v ')' rest₀ (Or.inr rfl)
          rw [parseValues, hs, hid]
          rfl
      | cons v2 t' =>
          have hid : parseValue
              ⟨encValues (v :: v2 :: t') ++ ')' :: rest₀, .valuesMode, none⟩ =
              .ok (v,
                ⟨',' :: (encValues (v2 :: t') ++ ')' :: rest₀),
                  .valuesMode, none⟩) := by
            rw [show encValues (v :: v2 :: t') ++ ')' :: rest₀ =
                quoteValueChars v ++
                  ',' :: (encValues (v2 :: t') ++ ')' :: rest₀) by
              simp [encValues, sepJoin, List.append_assoc]]
            exact parseValue_encVal v ',' _ (Or.inl rfl)
          have hfetch2 : ∃ r2,
              fetchToken .valuesMode (encValues (v2 :: t') ++ ')' :: rest₀) =
                .ok (⟨.String, v2⟩, r2) := by
            cases t' with
            | nil =>
                refine ⟨')' :: rest₀, ?_⟩
                rw [show encValues [v2] ++ ')' :: rest₀ =
                    quoteValueChars v2 ++ ')' :: rest₀ from rfl]
                exact lexValues_string v2 (')' :: rest₀) (by simp)
            | cons v3 t'' =>
                refine ⟨',' :: (encValues (v3 :: t'') ++ ')' :: rest₀), ?_⟩
                rw [show encValues (v2 :: v3 :: t'') ++ ')' :: rest₀ =
                    quoteValueChars v2 ++
                      ',' :: (encValues (v3 :: t'') ++ ')' :: rest₀) by
                  simp [encValues, sepJoin, List.append_assoc]]
                exact lexValues_string v2 _ (by simp)
          obtain ⟨r2, hfetch2⟩ := hfetch2
          have hcheck : checkToken .Comma
              ⟨',' :: (encValues (v2 :: t') ++ ')' :: rest₀),
                .valuesMode, none⟩ =
              .ok (true, ⟨encValues (v2 :: t') ++ ')' :: rest₀,
                .valuesMode, some ⟨.Comma, ","⟩⟩) := rfl
          have hfetchNew : fetchNew ⟨encValues (v2 :: t') ++ ')' :: rest₀,
              .valuesMode, some ⟨.Comma, ","⟩⟩ =
              .ok ⟨r2, .valuesMode, some ⟨.String, v2⟩⟩ := by
            simp [fetchNew, hfetch2]
          have hrec : parseValues fuel
              ⟨r2, .valuesMode, some ⟨.String, v2⟩⟩ =
              .ok (v2 :: t',
                ⟨rest₀, .valuesMode, some ⟨.RightParenthesis, ")"⟩⟩) := by
            apply ih fuel rest₀ _ (by simp) (by simp at hfuel ⊢; omega)
            exact parseValue_congr _ _
              ((currentToken_prefetch .valuesMode _ r2 _ hfetch2).symm)
          simp only [parseValues, hs, hid, hcheck, hfetchNew, hrec]

/-- `parseOptionalValues` over a serialized (possibly empty) value list
followed by a right parenthesis returns exactly those values. -/
theorem parseOptionalValues_run (vs : List String) (fuel : Nat)
    (rest₀ : List Char) (hfuel : vs.length ≤ fuel) :
    parseOptionalValues fuel
      ⟨encValues vs ++ ')' :: rest₀, .valuesMode, none⟩ =
      .ok (vs, ⟨rest₀, .valuesMode, some ⟨.RightParenthesis, ")"⟩⟩) := by
  cases vs with
  | nil => rfl
  | cons v t =>
      have hfetch1 : ∃ r1,
          fetchToken .valuesMode (encValues (v :: t) ++ ')' :: rest₀) =
            .ok (⟨.String, v⟩, r1) := by
        cases t with
        | nil =>
            refine ⟨')' :: rest₀, ?_⟩
            rw [show encValues [v] ++ ')' :: rest₀ =
                quoteValueChars v ++ ')' :: rest₀ from rfl]
            exact lexValues_string v (')' :: rest₀) (by simp)
        | cons v2 t' =>
            refine ⟨',' :: (encValues (v2 :: t') ++ ')' :: rest₀), ?_⟩
            rw [show encValues (v :: v2 :: t') ++ ')' :: rest₀ =
                quoteValueChars v ++
                  ',' :: (encValues (v2 :: t') ++ ')' :: rest₀) by
              simp [encValues, sepJoin, List.append_assoc]]
            exact lexValues_string v _ (by simp)
      obtain ⟨r1, hfetch1⟩ := hfetch1
      have hb : ((⟨.String, v⟩ : exprToken).symbol ==
          exprSymbol.RightParenthesis) = false := rfl
      have hcheck : checkToken .RightParenthesis
          ⟨encValues (v :: t) ++ ')' :: rest₀, .valuesMode, none⟩ =
          .ok (false, ⟨r1, .valuesMode, some ⟨.String, v⟩⟩) := by
        simp [checkToken, currentToken, hfetch1, hb]
      have hchk2 : checkToken .String ⟨r1, .valuesMode, some ⟨.String, v⟩⟩ =
          .ok (true, ⟨r1, .valuesMode, some ⟨.String, v⟩⟩) := rfl
      have hvals : parseValues fuel ⟨r1, .valuesMode, some ⟨.String, v⟩⟩ =
          .ok (v :: t,
            ⟨rest₀, .valuesMode, some ⟨.RightParenthesis, ")"⟩⟩) := by
        apply parseValues_run (v :: t) fuel rest₀ _ (by simp) hfuel
        exact parseValue_congr _ _
          ((currentToken_prefetch .valuesMode _ r1 _ hfetch1).symm)
      simp only [parseOptionalValues, hcheck, hchk2, hvals]

/-- A serialized term is a left parenthesis followed by lexeme, comma,
path, comma, values and the closing parenthesis, in right-nested form. -/
theorem serializeTermChars_cons (t : Term) (rest₀ : List Char) :
    serializeTermChars t ++ rest₀ =
      '(' :: ((opText t.operator).toList ++ ',' ::
        (encPath t.path ++ ',' :: (encValues t.values ++ ')' :: rest₀))) := by
  simp [serializeTermChars, List.append_assoc]

/-- Driving `parseTerm` over a serialized term (with an arbitrary
operator lexeme that lexes as one identifier and looks up to `op`)
returns exactly that term and leaves the rest of the input untouched. -/
theorem parseTerm_run (fuel : Nat) (opName : String) (op : Operator)
    (path : List String) (vs : List String) (rest₀ : List Char) (s : PState)
    (hlex : lexDefault .S0 [] (opName.toList ++ ',' ::
        (encPath path ++ ',' :: (encValues vs ++ ')' :: rest₀))) =
      .ok (⟨.Identifier, opName⟩, ',' ::
        (encPath path ++ ',' :: (encValues vs ++ ')' :: rest₀))))
    (hop : operatorOfName opName = .ok op)
    (hpath : path ≠ []) (hsegs : ∀ seg ∈ path, goodSeg seg)
    (hfp : path.length ≤ fuel) (hfv : vs.length ≤ fuel)
    (hcons : consumeToken .LeftParenthesis s =
      consumeToken .LeftParenthesis
        ⟨'(' :: (opName.toList ++ ',' ::
          (encPath path ++ ',' :: (encValues vs ++ ')' :: rest₀))),
          .defaultMode, none⟩) :
    parseTerm fuel s = .ok (⟨op, path, vs⟩, ⟨rest₀, .defaultMode, none⟩) := by
  have hcons2 : consumeToken .LeftParenthesis
      ⟨'(' :: (opName.toList ++ ',' ::
        (encPath path ++ ',' :: (encValues vs ++ ')' :: rest₀))),
        .defaultMode, none⟩ =
      .ok ⟨opName.toList ++ ',' ::
        (encPath path ++ ',' :: (encValues vs ++ ')' :: rest₀)),
        .defaultMode, none⟩ := rfl
  have hopid : parseOperatorTok ⟨opName.toList ++ ',' ::
      (encPath path ++ ',' :: (encValues vs ++ ')' :: rest₀)),
      .defaultMode, none⟩ =
      .ok (op, ⟨',' :: (encPath path ++ ',' :: (encValues vs ++ ')' :: rest₀)),
        .defaultMode, none⟩) := by
    have hfetch : fetchToken .defaultMode (opName.data ++ ',' ::
        (encPath path ++ ',' :: (encValues vs ++ ')' :: rest₀))) =
        .ok (⟨.Identifier, opName⟩, ',' ::
          (encPath path ++ ',' :: (encValues vs ++ ')' :: rest₀))) := hlex
    simp [parseOperatorTok, parseIdentifier, currentToken, consumeToken,
      hfetch, hop]
  have hcomma1 : consumeToken .Comma ⟨',' ::
      (encPath path ++ ',' :: (encValues vs ++ ')' :: rest₀)),
      .defaultMode, none⟩ =
      .ok ⟨encPath path ++ ',' :: (encValues vs ++ ')' :: rest₀),
        .defaultMode, none⟩ := rfl
  have hpathrun : parsePath fuel ⟨encPath path ++ ',' ::
      (encValues vs ++ ')' :: rest₀), .defaultMode, none⟩ =
      .ok (path, ⟨encValues vs ++ ')' :: rest₀,
        .defaultMode, some ⟨.Comma, ","⟩⟩) :=
    parsePath_run path fuel _ _ hpath hsegs hfp rfl
  have hcomma2 : consumeToken .Comma ⟨encValues vs ++ ')' :: rest₀,
      .defaultMode, some ⟨.Comma, ","⟩⟩ =
      .ok ⟨encValues vs ++ ')' :: rest₀, .defaultMode, none⟩ := rfl
  have hoptv : parseOptionalValues fuel
      ⟨encValues vs ++ ')' :: rest₀, .valuesMode, none⟩ =
      .ok (vs, ⟨rest₀, .valuesMode, some ⟨.RightParenthesis, ")"⟩⟩) :=
    parseOptionalValues_run vs fuel rest₀ hfv
  have hrp : consumeToken .RightParenthesis
      ⟨rest₀, .defaultMode, some ⟨.RightParenthesis, ")"⟩⟩ =
      .ok ⟨rest₀, .defaultMode, none⟩ := rfl
  rw [parseTerm, hcons, hcons2]
  simp only [hopid, hcomma1, hpathrun, hcomma2, setMode, hoptv, hrp]

/-- Driving `parseExpr` over a serialized non-empty term list returns
exactly those terms. -/
theorem parseExpr_run (terms : List Term) :
    ∀ (fuel : Nat) (s : PState),
      terms ≠ [] →
      (∀ t ∈ terms, t.operator ≠ .Lte ∧ t.path ≠ [] ∧
        ∀ seg ∈ t.path, goodSeg seg) →
      (∀ t ∈ terms, needBound t + terms.length ≤ fuel) →
      consumeToken .LeftParenthesis s = consumeToken .LeftParenthesis
        ⟨sepJoin ';' (terms.map serializeTermChars), .defaultMode, none⟩ →
      ∃ sEnd, parseExpr fuel s = .ok (terms, sEnd) := by
  induction terms with
  | nil =>
      intro _ _ hne
      exact absurd rfl hne
  | cons t tail ih =>
      intro fuel s _ hgood hfuel hs
      obtain ⟨fuel, rfl⟩ : ∃ f, fuel = f + 1 := by
        have := hfuel t (by simp)
        exact ⟨fuel - 1, by simp at this; omega⟩
      obtain ⟨hop, hpath, hsegs⟩ := hgood t (by simp)
      have hterm := serializeTermChars_cons t
      have hfp : t.path.length ≤ fuel + 1 := by
        have := hfuel t (by simp)
        simp [needBound] at this
        omega
      have hfv : t.values.length ≤ fuel + 1 := by
        have := hfuel t (by simp)
        simp [needBound] at this
        omega
      cases tail with
      | nil =>
          have hrunt : parseTerm (fuel + 1) s =
              .ok (⟨t.operator, t.path, t.values⟩, ⟨[], .defaultMode, none⟩) := by
            apply parseTerm_run (fuel + 1) (opText t.operator) t.operator
              t.path t.values [] s (lex_opText t.operator _)
              (operatorOfName_opText t.operator hop) hpath hsegs hfp hfv
            rw [hs]
            apply consumeToken_congr
            rw [show sepJoin ';' ([t].map serializeTermChars) =
              serializeTermChars t ++ [] by simp [sepJoin]]
            rw [hterm []]
          refine ⟨⟨[], .defaultMode, some ⟨.End, ""⟩⟩, ?_⟩
          rw [parseExpr, hrunt]
          rfl
      | cons t2 ts =>
          have hrunt : parseTerm (fuel + 1) s =
              .ok (⟨t.operator, t.path, t.values⟩,
                ⟨';' :: sepJoin ';' ((t2 :: ts).map serializeTermChars),
                  .defaultMode, none⟩) := by
            apply parseTerm_run (fuel + 1) (opText t.operator) t.operator
              t.path t.values
              (';' :: sepJoin ';' ((t2 :: ts).map serializeTermChars)) s
              (lex_opText t.operator _)
              (operatorOfName_opText t.operator hop) hpath hsegs hfp hfv
            rw [hs]
            apply consumeToken_congr
            rw [show sepJoin ';' ((t :: t2 :: ts).map serializeTermChars) =
              serializeTermChars t ++
                ';' :: sepJoin ';' ((t2 :: ts).map serializeTermChars) by
                simp [sepJoin]]
            rw [hterm _]
          have hcheck : checkToken .Semicolon
              ⟨';' :: sepJoin ';' ((t2 :: ts).map serializeTermChars),
                .defaultMode, none⟩ =
              .ok (true, ⟨sepJoin ';' ((t2 :: ts).map serializeTermChars),
                .defaultMode, some ⟨.Semicolon, ";"⟩⟩) := rfl
          have hfetch2 : ∃ r2, fetchToken .defaultMode
              (sepJoin ';' ((t2 :: ts).map serializeTermChars)) =
              .ok (⟨.LeftParenthesis, "("⟩, r2) := by
            have hz : ∃ Z, sepJoin ';' ((t2 :: ts).map serializeTermChars) =
                '(' :: Z := by
              cases ts with
              | nil =>
                  refine ⟨(opText t2.operator).toList ++ ',' ::
                    (encPath t2.path ++ ',' ::
                      (encValues t2.values ++ ')' :: [])), ?_⟩
                  rw [show sepJoin ';' ([t2].map serializeTermChars) =
                    serializeTermChars t2 ++ [] by simp [sepJoin]]
                  exact serializeTermChars_cons t2 []
              | cons t3 ts' =>
                  refine ⟨(opText t2.operator).toList ++ ',' ::
                    (encPath t2.path ++ ',' ::
                      (encValues t2.values ++ ')' ::
                        (';' :: sepJoin ';'
                          ((t3 :: ts').map serializeTermChars)))), ?_⟩
                  rw [show sepJoin ';' ((t2 :: t3 :: ts').map serializeTermChars) =
                    serializeTermChars t2 ++
                      ';' :: sepJoin ';' ((t3 :: ts').map serializeTermChars) by
                      simp [sepJoin]]
                  exact serializeTermChars_cons t2 _
            obtain ⟨Z, hz⟩ := hz
            refine ⟨Z, ?_⟩
            rw [hz]
            rfl
          obtain ⟨r2, hfetch2⟩ := hfetch2
          have hfetchNew : fetchNew
              ⟨sepJoin ';' ((t2 :: ts).map serializeTermChars),
                .defaultMode, some ⟨.Semicolon, ";"⟩⟩ =
              .ok ⟨r2, .defaultMode, some ⟨.LeftParenthesis, "("⟩⟩ := by
            simp only [fetchNew]
            rw [hfetch2]
          have hrec : ∃ sEnd, parseExpr fuel
              ⟨r2, .defaultMode, some ⟨.LeftParenthesis, "("⟩⟩ =
              .ok (t2 :: ts, sEnd) := by
            apply ih fuel _ (by simp)
              (fun x hx => hgood x (List.mem_cons_of_mem t hx))
              (fun x hx => by
                have := hfuel x (List.mem_cons_of_mem t hx)
                simp at this ⊢
                omega)
            exact consumeToken_congr _ _ _
              ((currentToken_prefetch .defaultMode _ r2 _ hfetch2).symm)
          obtain ⟨sEnd, hrec⟩ := hrec
          refine ⟨sEnd, ?_⟩
          rw [parseExpr, hrunt]
          simp only [hcheck, hfetchNew, hrec]

/-- A character's escaped form is never empty. -/
theorem escapeSegmentChar_length (c : Char) :
    1 ≤ (escapeSegmentChar c).length := by
  unfold escapeSegmentChar
  split_ifs <;> simp

/-- The encoded form of a good segment is never empty. -/
theorem encodeSegment_length (seg : String) (hgood : goodSeg seg) :
    1 ≤ (encodeSegment seg).length := by
  unfold encodeSegment
  split_ifs with h
  · subst h
    decide
  · cases hl : seg.toList with
    | nil =>
        exfalso
        unfold goodSeg at hgood
        rw [hl] at hgood
        simp [segScan] at hgood
    | cons c l =>
        have h1 := escapeSegmentChar_length c
        simp [encChars]
        omega

/-- A quoted value takes at least its two quotes. -/
theorem quoteValueChars_length (v : String) :
    2 ≤ (quoteValueChars v).length := by
  simp [quoteValueChars]

/-- Length of a separator join: the summed lengths plus the separators. -/
theorem sepJoin_length (sep : Char) (ls : List (List Char)) :
    (sepJoin sep ls).length = (ls.map List.length).sum + (ls.length - 1) := by
  induction ls with
  | nil => rfl
  | cons x t iht =>
      cases t with
      | nil => simp [sepJoin]
      | cons y r =>
          rw [show sepJoin sep (x :: y :: r) =
            x ++ sep :: sepJoin sep (y :: r) from rfl]
          simp only [List.length_append, List.length_cons, iht,
            List.map_cons, List.sum_cons, List.length_cons]
          simp
          omega

/-- Lists of non-empty lists have at least as many summed characters as
elements. -/
theorem length_le_sum (ls : List (List Char))
    (h : ∀ y ∈ ls, 1 ≤ y.length) :
    ls.length ≤ (ls.map List.length).sum := by
  induction ls with
  | nil => simp
  | cons y t ih =>
      have h1 := h y (by simp)
      have h2 := ih (fun z hz => h z (List.mem_cons_of_mem y hz))
      simp only [List.map_cons, List.sum_cons, List.length_cons]
      omega

/-- Lists of length-two-or-more lists have at least twice as many summed
characters as elements. -/
theorem twice_length_le_sum (ls : List (List Char))
    (h : ∀ y ∈ ls, 2 ≤ y.length) :
    2 * ls.length ≤ (ls.map List.length).sum := by
  induction ls with
  | nil => simp
  | cons y t ih =>
      have h1 := h y (by simp)
      have h2 := ih (fun z hz => h z (List.mem_cons_of_mem y hz))
      simp only [List.map_cons, List.sum_cons, List.length_cons]
      omega

/-- A member of a separator join fits inside it together with one
character per further element. -/
theorem sepJoin_member_length (sep : Char) (ls : List (List Char))
    (x : List Char) (hx : x ∈ ls) (h1 : ∀ y ∈ ls, 1 ≤ y.length) :
    x.length + (ls.length - 1) ≤ (sepJoin sep ls).length := by
  rw [sepJoin_length]
  induction ls with
  | nil => cases hx
  | cons y t ih =>
      rcases List.mem_cons.mp hx with h | h
      · subst h
        have := length_le_sum t (fun z hz => h1 z (List.mem_cons_of_mem x hz))
        simp only [List.map_cons, List.sum_cons, List.length_cons]
        omega
      · have hy := h1 y (by simp)
        have ht := ih h (fun z hz => h1 z (List.mem_cons_of_mem y hz))
        have hne : t ≠ [] := by
          intro he
          rw [he] at h
          cases h
        have htlen : 1 ≤ t.length := by
          cases t with
          | nil => exact absurd rfl hne
          | cons a b => simp
        simp only [List.map_cons, List.sum_cons, List.length_cons] at ht ⊢
        omega

/-- Every operator lexeme has at least two characters. -/
theorem opText_length (op : Operator) : 2 ≤ (opText op).toList.length := by
  cases op <;> decide

/-- The number of values is at most the length of their serialization. -/
theorem encValues_length (vs : List String) :
    vs.length ≤ (encValues vs).length := by
  rw [encValues, sepJoin_length]
  have := length_le_sum (vs.map quoteValueChars) (by
    intro y hy
    obtain ⟨v, _, rfl⟩ := List.mem_map.mp hy
    have := quoteValueChars_length v
    omega)
  simp only [List.length_map] at this ⊢
  omega

/-- A serialized term is long enough to fuel its own path and value
loops, with six characters to spare. -/
theorem serializeTermChars_length (t : Term) (hpath : t.path ≠ [])
    (hsegs : ∀ seg ∈ t.path, goodSeg seg) :
    needBound t + 6 ≤ (serializeTermChars t).length := by
  have hp1 : 1 ≤ t.path.length := by
    cases hp : t.path with
    | nil => exact absurd hp hpath
    | cons a b => simp
  have hep : t.path.length ≤ (encPath t.path).length := by
    rw [encPath, sepJoin_length]
    have := length_le_sum (t.path.map encodeSegment) (by
      intro y hy
      obtain ⟨seg, hseg, rfl⟩ := List.mem_map.mp hy
      exact encodeSegment_length seg (hsegs seg hseg))
    simp only [List.length_map] at this ⊢
    omega
  have hop := opText_length t.operator
  have hlen : (serializeTermChars t).length =
      (opText t.operator).toList.length + (encPath t.path).length +
        (encValues t.values).length + 4 := by
    simp [serializeTermChars]
    omega
  cases hv : t.values with
  | nil =>
      have hnb : needBound t = t.path.length := by
        simp [needBound, hv]
        omega
      have hev : (encValues ([] : List String)).length = 0 := rfl
      rw [hnb, hlen, hv, hev]
      omega
  | cons v0 vrest =>
      have hev : t.values.length + 1 ≤ (encValues t.values).length := by
        rw [encValues, sepJoin_length]
        have := twice_length_le_sum (t.values.map quoteValueChars) (by
          intro y hy
          obtain ⟨v, _, rfl⟩ := List.mem_map.mp hy
          exact quoteValueChars_length v)
        have hvs1 : 1 ≤ t.values.length := by
          rw [hv]
          simp
        simp only [List.length_map] at this ⊢
        omega
      have hnb : needBound t ≤ t.path.length + (encValues t.values).length := by
        apply max_le
        · omega
        · omega
      rw [hlen]
      omega

/-- The serialization of a well-formed expression is long enough to fuel
every loop of the recursive descent. -/
theorem serializeExprChars_fuel (E : Expr) (hne : E.terms ≠ [])
    (hgood : ∀ t ∈ E.terms, t.path ≠ [] ∧ ∀ seg ∈ t.path, goodSeg seg) :
    1 ≤ (serializeExprChars E).length ∧
    ∀ t ∈ E.terms,
      needBound t + E.terms.length ≤ (serializeExprChars E).length + 1 := by
  have hmem : ∀ t ∈ E.terms,
      (serializeTermChars t).length + (E.terms.length - 1) ≤
        (serializeExprChars E).length := by
    intro t ht
    rw [serializeExprChars]
    have hres := sepJoin_member_length ';' (E.terms.map serializeTermChars)
      (serializeTermChars t) (List.mem_map_of_mem _ ht) (by
        intro y hy
        obtain ⟨u, hu, rfl⟩ := List.mem_map.mp hy
        have := serializeTermChars_length u (hgood u hu).1 (hgood u hu).2
        omega)
    simpa using hres
  obtain ⟨t0, ht0⟩ : ∃ t0, t0 ∈ E.terms := by
    cases hE : E.terms with
    | nil => exact absurd hE hne
    | cons a b => exact ⟨a, by simp [hE]⟩
  constructor
  · have h1 := hmem t0 ht0
    have h2 := serializeTermChars_length t0 (hgood t0 ht0).1 (hgood t0 ht0).2
    omega
  · intro t ht
    have h1 := hmem t ht
    have h2 := serializeTermChars_length t (hgood t ht).1 (hgood t ht).2
    have h3 : 1 ≤ E.terms.length := by
      cases hE : E.terms with
      | nil => exact absurd hE hne
      | cons a b => simp
    omega

/-- Parsing the serialization of a well-formed expression (every operator
producible, every path non-empty with good segments) gives the expression
back. -/
theorem parse_serializeExpr (E : Expr) (hne : E.terms ≠ [])
    (hgood : ∀ t ∈ E.terms, t.operator ≠ .Lte ∧ t.path ≠ [] ∧
      ∀ seg ∈ t.path, goodSeg seg) :
    parse (serializeExpr E) = .ok E := by
  obtain ⟨hlen1, hfuel⟩ := serializeExprChars_fuel E hne
    (fun t ht => ⟨(hgood t ht).2.1, (hgood t ht).2.2⟩)
  have hlen : (serializeExpr E).length = (serializeExprChars E).length := rfl
  obtain ⟨sEnd, hrun⟩ := parseExpr_run E.terms
    ((serializeExpr E).length + 1)
    ⟨(serializeExpr E).toList, .defaultMode, none⟩ hne hgood
    (by
      intro t ht
      rw [hlen]
      exact hfuel t ht)
    rfl
  rw [parse, if_neg (by omega), hrun]

/-- Parsing a single term with an arbitrary table operator lexeme, the
path `a` and any serialized value list accepts and returns exactly those
values in order. -/
theorem parse_single_term (opName : String) (op : Operator) (vs : List String)
    (hlex : ∀ Y : List Char, lexDefault .S0 [] (opName.toList ++ ',' :: Y) =
      .ok (⟨.Identifier, opName⟩, ',' :: Y))
    (hop : operatorOfName opName = .ok op) :
    parse ("(" ++ opName ++ ",a," ++ String.mk (encValues vs) ++ ")") =
      .ok ⟨[⟨op, ["a"], vs⟩]⟩ := by
  have hchars : ("(" ++ opName ++ ",a," ++ String.mk (encValues vs) ++ ")").toList =
      '(' :: (opName.toList ++ ',' ::
        (encPath ["a"] ++ ',' :: (encValues vs ++ ')' :: []))) := by
    show ("(" ++ opName ++ ",a," ++ String.mk (encValues vs) ++ ")").data = _
    simp only [String.data_append]
    show ['('] ++ opName.data ++ [',', 'a', ','] ++ encValues vs ++ [')'] = _
    rw [show encPath ["a"] = ['a'] from rfl]
    simp [List.append_assoc]
  have hlen : ("(" ++ opName ++ ",a," ++ String.mk (encValues vs) ++ ")").length =
      opName.length + (encValues vs).length + 5 := by
    simp only [String.length_append]
    rw [show ("(" : String).length = 1 from rfl,
      show (",a," : String).length = 3 from rfl,
      show (")" : String).length = 1 from rfl,
      show (String.mk (encValues vs)).length = (encValues vs).length from rfl]
    omega
  have hev := encValues_length vs
  have hterm : parseTerm
      (("(" ++ opName ++ ",a," ++ String.mk (encValues vs) ++ ")").length + 1)
      ⟨("(" ++ opName ++ ",a," ++ String.mk (encValues vs) ++ ")").toList,
        .defaultMode, none⟩ =
      .ok (⟨op, ["a"], vs⟩, ⟨[], .defaultMode, none⟩) := by
    apply parseTerm_run _ opName op ["a"] vs [] _ (hlex _) hop (by simp)
      (by
        intro seg hseg
        simp at hseg
        subst hseg
        show segScan .PE .PE ("a".toList) = true
        decide)
      (by simp) (by omega)
    rw [hchars]
  have hexpr : parseExpr
      (("(" ++ opName ++ ",a," ++ String.mk (encValues vs) ++ ")").length + 1)
      ⟨("(" ++ opName ++ ",a," ++ String.mk (encValues vs) ++ ")").toList,
        .defaultMode, none⟩ =
      .ok ([⟨op, ["a"], vs⟩], ⟨[], .defaultMode, some ⟨.End, ""⟩⟩) := by
    rw [parseExpr, hterm]
    rfl
  rw [parse, if_neg (by omega), hexpr]

/-- Lax-scanner step for an identifier-start character (letter,
underscore or `@`). -/
theorem segScan_lax_start (c : Char) (q : scanSt) (e : List Char)
    (h : (Selector.isLetter c || c = '_' || c = '@') = true)
    (he : segScan .PR .PR e = true) :
    segScan .PR q (c :: e) = true := by
  rcases Bool.or_eq_true_iff.mp h with h4 | h4
  · rcases Bool.or_eq_true_iff.mp h4 with h5 | h5
    · have hr : rawIdentChar c = true := by simp [rawIdentChar, h5]
      have hl : (Selector.isLetter c || c = '_') = true := by simp [h5]
      cases q
      · rw [segScan, if_pos hr]
        exact he
      · rw [segScan, if_pos hl]
        exact he
    · have hc : c = '_' := by simpa using h5
      subst hc
      cases q
      · rw [segScan, if_pos (by decide)]
        exact he
      · rw [segScan, if_pos (by decide)]
        exact he
  · have hc : c = '@' := by simpa using h4
    subst hc
    cases q
    · rw [segScan, if_neg (by decide), if_pos rfl]
      exact he
    · rw [segScan, if_neg (by decide), if_pos rfl]
      exact he

/-- Lax-scanner step for a raw identifier-continuation character. -/
theorem segScan_lax_raw (c : Char) (e : List Char)
    (hr : rawIdentChar c = true) (he : segScan .PR .PR e = true) :
    segScan .PR .PR (c :: e) = true := by
  rw [segScan, if_pos hr]
  exact he

/-- Lax-scanner step for an always-escaped character. -/
theorem segScan_lax_esc (d : Char) (q : scanSt) (e : List Char)
    (hd : escCore d = true) (he : segScan .PR .PE e = true) :
    segScan .PR q (d :: e) = true := by
  have hfacts : rawIdentChar d = false ∧ d ≠ '@' ∧
      (Selector.isLetter d || d = '_') = false := by
    rcases (by simpa [escCore, or_assoc] using hd :
        d = '~' ∨ d = '/' ∨ d = ',') with h | h | h <;> subst h <;>
      exact ⟨by decide, by decide, by decide⟩
  cases q
  · rw [segScan, if_neg (by simp [hfacts.1]), if_neg hfacts.2.1, if_pos hd]
    exact he
  · rw [segScan, if_neg (by simp [hfacts.2.2]), if_neg hfacts.2.1, if_pos hd]
    exact he

/-- Every identifier token the default-mode lexer emits carries a
lax-scanner-accepted (producible) text, given that the lexeme accumulated
so far extends to an accepted text however the scan continues. -/
theorem lexDefault_emit_producible (cs : List Char) :
    ∀ (st : lexState) (lex : List Char) (q : scanSt) (t : exprToken)
      (rest : List Char),
      lexDefault st lex cs = .ok (t, rest) → t.symbol = .Identifier →
      (st = .S1 → q = .PR) →
      (∀ e, segScan .PR q e = true → segScan .PR .PE (lex ++ e) = true) →
      segScan .PR .PE t.text.toList = true := by
  induction cs with
  | nil =>
      intro st lex q t rest h hsym hq hH
      cases st <;> simp only [lexDefault] at h
      · simp only [Except.ok.injEq, Prod.mk.injEq] at h
        rw [← h.1] at hsym
        simp at hsym
      · simp only [Except.ok.injEq, Prod.mk.injEq] at h
        rw [← h.1]
        have h0 : segScan .PR .PE lex = true := by
          have := hH [] (by rw [hq rfl]; rfl)
          simpa using this
        simpa using h0
      · simp at h
  | cons c cs ih =>
      intro st lex q t rest h hsym hq hH
      cases st
      · simp only [lexDefault] at h
        split_ifs at h with h1 h2 h3 h4 h5 h6 h7 h8
        · exact ih .S0 lex q t rest h hsym (fun he => nomatch he) hH
        · refine ih .S1 (lex ++ [c]) .PR t rest h hsym (fun _ => rfl) ?_
          intro e he
          have := hH (c :: e) (segScan_lax_start c q e h2 he)
          simpa [List.append_assoc] using this
        · simp only [Except.ok.injEq, Prod.mk.injEq] at h
          rw [← h.1] at hsym
          simp at hsym
        · simp only [Except.ok.injEq, Prod.mk.injEq] at h
          rw [← h.1] at hsym
          simp at hsym
        · simp only [Except.ok.injEq, Prod.mk.injEq] at h
          rw [← h.1] at hsym
          simp at hsym
        · simp only [Except.ok.injEq, Prod.mk.injEq] at h
          rw [← h.1] at hsym
          simp at hsym
        · simp only [Except.ok.injEq, Prod.mk.injEq] at h
          rw [← h.1] at hsym
          simp at hsym
        · exact ih .S2 lex q t rest h hsym (fun he => nomatch he) hH
      · simp only [lexDefault] at h
        split_ifs at h with h1 h2
        · have hq' := hq rfl
          subst hq'
          refine ih .S1 (lex ++ [c]) .PR t rest h hsym (fun _ => rfl) ?_
          intro e he
          have := hH (c :: e) (segScan_lax_raw c e h1 he)
          simpa [List.append_assoc] using this
        · exact ih .S2 lex q t rest h hsym (fun he => nomatch he) hH
        · simp only [Except.ok.injEq, Prod.mk.injEq] at h
          rw [← h.1]
          have h0 : segScan .PR .PE lex = true := by
            have := hH [] (by rw [hq rfl]; rfl)
            simpa using this
          simpa using h0
      · simp only [lexDefault] at h
        cases hdec : decodeEscape c with
        | none =>
            rw [hdec] at h
            simp at h
        | some d =>
            rw [hdec] at h
            have hd : d = '~' ∨ d = '/' ∨ d = ',' ∨ d = '@' := by
              unfold decodeEscape at hdec
              split_ifs at hdec <;> simp only [Option.some.injEq] at hdec <;>
                simp [← hdec]
            rcases hd with h4 | h4 | h4 | h4 <;> subst h4
            · refine ih .S0 (lex ++ ['~']) .PE t rest h hsym
                (fun he => nomatch he) ?_
              intro e he
              have := hH ('~' :: e) (segScan_lax_esc '~' q e (by decide) he)
              simpa [List.append_assoc] using this
            · refine ih .S0 (lex ++ ['/']) .PE t rest h hsym
                (fun he => nomatch he) ?_
              intro e he
              have := hH ('/' :: e) (segScan_lax_esc '/' q e (by decide) he)
              simpa [List.append_assoc] using this
            · refine ih .S0 (lex ++ [',']) .PE t rest h hsym
                (fun he => nomatch he) ?_
              intro e he
              have := hH (',' :: e) (segScan_lax_esc ',' q e (by decide) he)
              simpa [List.append_assoc] using this
            · refine ih .S0 (lex ++ ['@']) .PR t rest h hsym
                (fun he => nomatch he) ?_
              intro e he
              have := hH ('@' :: e) (segScan_lax_start '@' q e (by decide) he)
              simpa [List.append_assoc] using this

/-- Every token fetched in default mode is producible. -/
theorem fetchToken_default_tokOK (cs : List Char) (t : exprToken)
    (r : List Char) (h : fetchToken .defaultMode cs = .ok (t, r)) : tokOK t := by
  intro hsym
  exact lexDefault_emit_producible cs .S0 [] .PE t r h hsym
    (fun he => nomatch he) (fun e he => by simpa using he)

/-- The values-mode lexer never emits an identifier token. -/
theorem lexValues_not_ident (cs : List Char) :
    ∀ (t : exprToken) (r : List Char),
      lexValues cs = .ok (t, r) → t.symbol ≠ .Identifier := by
  induction cs with
  | nil =>
      intro t r h
      simp only [lexValues] at h
      simp only [Except.ok.injEq, Prod.mk.injEq] at h
      rw [← h.1]
      decide
  | cons c cs ih =>
      intro t r h
      simp only [lexValues] at h
      split_ifs at h with h1 h2 h3 h4
      · exact ih t r h
      · cases hb : lexStringBody [] cs with
        | error e =>
            rw [hb] at h
            simp at h
        | ok p =>
            obtain ⟨txt, r2⟩ := p
            rw [hb] at h
            simp only [Except.ok.injEq, Prod.mk.injEq] at h
            rw [← h.1]
            exact fun hc => nomatch hc
      · simp only [Except.ok.injEq, Prod.mk.injEq] at h
        rw [← h.1]
        decide
      · simp only [Except.ok.injEq, Prod.mk.injEq] at h
        rw [← h.1]
        decide

/-- Every token the lexer hands the parser is producible. -/
theorem fetchToken_tokOK (m : exprMode) (cs : List Char) (t : exprToken)
    (r : List Char) (h : fetchToken m cs = .ok (t, r)) : tokOK t := by
  cases m
  · exact fetchToken_default_tokOK cs t r h
  · intro hsym
    exact absurd hsym (lexValues_not_ident cs t r h)

/-- A state whose lookahead slot is empty satisfies the invariant
vacuously. -/
theorem stateOK_of_tok_none (s : PState) (h : s.tok = none) : stateOK s := by
  intro u hu
  rw [h] at hu
  simp at hu

/-- `setMode` does not touch the lookahead slot. -/
theorem stateOK_setMode (m : exprMode) (s : PState) (h : stateOK s) :
    stateOK (setMode m s) := by
  intro u hu
  exact h u hu

/-- `currentToken` returns a producible token, preserves the invariant,
and leaves that token in the lookahead slot. -/
theorem currentToken_wf (s : PState) (t : exprToken) (s' : PState)
    (hok : stateOK s) (h : currentToken s = .ok (t, s')) :
    tokOK t ∧ stateOK s' ∧ s'.tok = some t := by
  unfold currentToken at h
  split at h
  · rename_i t0 htok
    simp only [Except.ok.injEq, Prod.mk.injEq] at h
    obtain ⟨rfl, rfl⟩ := h
    exact ⟨hok t0 htok, hok, htok⟩
  · rename_i htok
    split at h
    · simp at h
    · rename_i t1 r1 hf
      simp only [Except.ok.injEq, Prod.mk.injEq] at h
      obtain ⟨rfl, rfl⟩ := h
      refine ⟨fetchToken_tokOK s.mode s.rest t1 r1 hf, ?_, rfl⟩
      intro u hu
      have hu' : t1 = u := by simpa using hu
      rw [← hu']
      exact fetchToken_tokOK s.mode s.rest t1 r1 hf

/-- A successful `consumeToken` empties the lookahead slot. -/
theorem consumeToken_tok_none (sym : exprSymbol) (s s' : PState)
    (h : consumeToken sym s = .ok s') : s'.tok = none := by
  unfold consumeToken at h
  split at h
  · simp at h
  · rename_i t1 s1 heq
    split_ifs at h with hbeq
    simp only [Except.ok.injEq] at h
    rw [← h]

/-- A successful `consumeToken` on a state whose slot holds `t` certifies
that `t` has the consumed symbol. -/
theorem consumeToken_sym (sym : exprSymbol) (s s' : PState) (t : exprToken)
    (htok : s.tok = some t) (h : consumeToken sym s = .ok s') :
    t.symbol = sym := by
  have hcur : currentToken s = .ok (t, s) := by
    unfold currentToken
    rw [htok]
  unfold consumeToken at h
  split at h
  · rename_i e heq
    rw [hcur] at heq
    simp at heq
  · rename_i t1 s1 heq
    rw [hcur] at heq
    simp only [Except.ok.injEq, Prod.mk.injEq] at heq
    obtain ⟨rfl, rfl⟩ := heq
    split_ifs at h with hbeq
    simpa using hbeq

/-- `checkToken` preserves the state invariant. -/
theorem checkToken_wf (sym : exprSymbol) (s : PState) (b : Bool) (s' : PState)
    (hok : stateOK s) (h : checkToken sym s = .ok (b, s')) : stateOK s' := by
  unfold checkToken at h
  split at h
  · simp at h
  · rename_i t1 s1 heq
    simp only [Except.ok.injEq, Prod.mk.injEq] at h
    obtain ⟨-, rfl⟩ := h
    exact (currentToken_wf s t1 s1 hok heq).2.1

/-- `fetchNew` establishes the state invariant for the state it returns. -/
theorem fetchNew_wf (s s' : PState) (h : fetchNew s = .ok s') : stateOK s' := by
  unfold fetchNew at h
  split at h
  · simp at h
  · rename_i t1 r1 hf
    simp only [Except.ok.injEq] at h
    rw [← h]
    intro u hu
    have hu' : t1 = u := by simpa using hu
    rw [← hu']
    exact fetchToken_tokOK s.mode s.rest t1 r1 hf

/-- `parseIdentifier` only returns producible segment texts and preserves
the invariant. -/
theorem parseIdentifier_wf (s : PState) (txt : String) (s' : PState)
    (hok : stateOK s) (h : parseIdentifier s = .ok (txt, s')) :
    segScan .PR .PE txt.toList = true ∧ stateOK s' := by
  unfold parseIdentifier at h
  split at h
  · simp at h
  · rename_i t s1 heq
    obtain ⟨htokOK, hok1, hs1tok⟩ := currentToken_wf s t s1 hok heq
    split at h
    · simp at h
    · rename_i s2 hcons
      simp only [Except.ok.injEq, Prod.mk.injEq] at h
      obtain ⟨rfl, rfl⟩ := h
      have hsym := consumeToken_sym .Identifier s1 s2 t hs1tok hcons
      exact ⟨htokOK hsym,
        stateOK_of_tok_none s2 (consumeToken_tok_none .Identifier s1 s2 hcons)⟩

/-- `parseValue` preserves the invariant. -/
theorem parseValue_wf (s : PState) (v : String) (s' : PState)
    (hok : stateOK s) (h : parseValue s = .ok (v, s')) : stateOK s' := by
  unfold parseValue at h
  split at h
  · simp at h
  · rename_i t s1 heq
    split at h
    · simp at h
    · rename_i s2 hcons
      simp only [Except.ok.injEq, Prod.mk.injEq] at h
      obtain ⟨-, rfl⟩ := h
      exact stateOK_of_tok_none s2 (consumeToken_tok_none .String s1 s2 hcons)

/-- `parseOperator` never returns `Lte` (the table maps `lte` to `Gt`)
and preserves the invariant. -/
theorem parseOperatorTok_wf (s : PState) (op : Operator) (s' : PState)
    (hok : stateOK s) (h : parseOperatorTok s = .ok (op, s')) :
    op ≠ .Lte ∧ stateOK s' := by
  unfold parseOperatorTok at h
  split at h
  · simp at h
  · rename_i name s1 heq
    split at h
    · simp at h
    · rename_i op1 hop
      simp only [Except.ok.injEq, Prod.mk.injEq] at h
      obtain ⟨rfl, rfl⟩ := h
      exact ⟨operatorOfName_ne_lte name op1 hop,
        (parseIdentifier_wf s name s1 hok heq).2⟩

/-- `parsePath` returns a non-empty list of producible segments and
preserves the invariant. -/
theorem parsePath_wf (fuel : Nat) :
    ∀ (s : PState) (segs : List String) (s' : PState),
      stateOK s → parsePath fuel s = .ok (segs, s') →
      segs ≠ [] ∧ (∀ seg ∈ segs, segScan .PR .PE seg.toList = true) ∧
        stateOK s' := by
  induction fuel with
  | zero =>
      intro s segs s' hok h
      simp [parsePath] at h
  | succ fuel ih =>
      intro s segs s' hok h
      simp only [parsePath] at h
      split at h
      · simp at h
      · rename_i seg s1 heq
        obtain ⟨hseg, hok1⟩ := parseIdentifier_wf s seg s1 hok heq
        split at h
        · simp at h
        · rename_i s2 hc1
          have hok2 := checkToken_wf .Slash s1 true s2 hok1 hc1
          split at h
          · simp at h
          · rename_i s3 hf
            have hok3 := fetchNew_wf s2 s3 hf
            split at h
            · simp at h
            · rename_i segs1 s4 hr
              simp only [Except.ok.injEq, Prod.mk.injEq] at h
              obtain ⟨rfl, rfl⟩ := h
              obtain ⟨hne, hall, hok4⟩ := ih s3 segs1 s4 hok3 hr
              refine ⟨by simp, ?_, hok4⟩
              intro x hx
              rcases List.mem_cons.mp hx with rfl | hx
              · exact hseg
              · exact hall x hx
        · rename_i s2 hc1
          have hok2 := checkToken_wf .Slash s1 false s2 hok1 hc1
          split at h
          · simp at h
          · rename_i s3 hc2
            simp only [Except.ok.injEq, Prod.mk.injEq] at h
            obtain ⟨rfl, rfl⟩ := h
            have hok3 := checkToken_wf .Comma s2 true s3 hok2 hc2
            refine ⟨by simp, ?_, hok3⟩
            intro x hx
            rcases List.mem_singleton.mp hx with rfl
            exact hseg
          · rename_i s3 hc2
            split at h
            · simp at h
            · simp at h

/-- `parseValues` preserves the invariant. -/
theorem parseValues_wf (fuel : Nat) :
    ∀ (s : PState) (vs : List String) (s' : PState),
      stateOK s → parseValues fuel s = .ok (vs, s') → stateOK s' := by
  induction fuel with
  | zero =>
      intro s vs s' hok h
      simp [parseValues] at h
  | succ fuel ih =>
      intro s vs s' hok h
      simp only [parseValues] at h
      split at h
      · simp at h
      · rename_i v s1 heq
        have hok1 := parseValue_wf s v s1 hok heq
        split at h
        · simp at h
        · rename_i s2 hc1
          have hok2 := checkToken_wf .Comma s1 true s2 hok1 hc1
          split at h
          · simp at h
          · rename_i s3 hf
            have hok3 := fetchNew_wf s2 s3 hf
            split at h
            · simp at h
            · rename_i vs1 s4 hr
              simp only [Except.ok.injEq, Prod.mk.injEq] at h
              obtain ⟨rfl, rfl⟩ := h
              exact ih s3 vs1 s4 hok3 hr
        · rename_i s2 hc1
          have hok2 := checkToken_wf .Comma s1 false s2 hok1 hc1
          split at h
          · simp at h
          · rename_i s3 hc2
            simp only [Except.ok.injEq, Prod.mk.injEq] at h
            obtain ⟨rfl, rfl⟩ := h
            exact checkToken_wf .RightParenthesis s2 true s3 hok2 hc2
          · rename_i s3 hc2
            split at h
            · simp at h
            · simp at h

/-- `parseOptionalValues` preserves the invariant. -/
theorem parseOptionalValues_wf (fuel : Nat) (s : PState) (vs : List String)
    (s' : PState) (hok : stateOK s)
    (h : parseOptionalValues fuel s = .ok (vs, s')) : stateOK s' := by
  unfold parseOptionalValues at h
  split at h
  · simp at h
  · rename_i s1 hc1
    simp only [Except.ok.injEq, Prod.mk.injEq] at h
    obtain ⟨-, rfl⟩ := h
    exact checkToken_wf .RightParenthesis s true s1 hok hc1
  · rename_i s1 hc1
    have hok1 := checkToken_wf .RightParenthesis s false s1 hok hc1
    split at h
    · simp at h
    · rename_i s2 hc2
      have hok2 := checkToken_wf .String s1 true s2 hok1 hc2
      exact parseValues_wf fuel s2 vs s' hok2 h
    · rename_i s2 hc2
      split at h
      · simp at h
      · simp at h

/-- `parseTerm` returns a well-formed term (operator never `Lte`,
non-empty path of producible segments) and preserves the invariant. -/
theorem parseTerm_wf (fuel : Nat) (s : PState) (t : Term) (s' : PState)
    (hok : stateOK s) (h : parseTerm fuel s = .ok (t, s')) :
    termOK t ∧ stateOK s' := by
  unfold parseTerm at h
  split at h
  · simp at h
  · rename_i s1 hcons1
    have hok1 :=
      stateOK_of_tok_none s1 (consumeToken_tok_none .LeftParenthesis s s1 hcons1)
    split at h
    · simp at h
    · rename_i op s2 hopr
      obtain ⟨hopne, hok2⟩ := parseOperatorTok_wf s1 op s2 hok1 hopr
      split at h
      · simp at h
      · rename_i s3 hcons2
        have hok3 :=
          stateOK_of_tok_none s3 (consumeToken_tok_none .Comma s2 s3 hcons2)
        split at h
        · simp at h
        · rename_i path s4 hpath
          obtain ⟨hpne, hpsegs, hok4⟩ := parsePath_wf fuel s3 path s4 hok3 hpath
          split at h
          · simp at h
          · rename_i s5 hcons3
            have hok5 :=
              stateOK_of_tok_none s5 (consumeToken_tok_none .Comma s4 s5 hcons3)
            split at h
            · simp at h
            · rename_i values s6 hvals
              have hok6 := parseOptionalValues_wf fuel (setMode .valuesMode s5)
                values s6 (stateOK_setMode .valuesMode s5 hok5) hvals
              split at h
              · simp at h
              · rename_i s7 hcons4
                simp only [Except.ok.injEq, Prod.mk.injEq] at h
                obtain ⟨rfl, rfl⟩ := h
                exact ⟨⟨hopne, hpne, hpsegs⟩,
                  stateOK_of_tok_none s7 (consumeToken_tok_none
                    .RightParenthesis (setMode .defaultMode s6) s7 hcons4)⟩

/-- `parseExpr` returns a non-empty list of well-formed terms. -/
theorem parseExpr_wf (fuel : Nat) :
    ∀ (s : PState) (terms : List Term) (s' : PState),
      stateOK s → parseExpr fuel s = .ok (terms, s') →
      terms ≠ [] ∧ ∀ t ∈ terms, termOK t := by
  induction fuel with
  | zero =>
      intro s terms s' hok h
      simp [parseExpr] at h
  | succ fuel ih =>
      intro s terms s' hok h
      simp only [parseExpr] at h
      split at h
      · simp at h
      · rename_i term s1 hterm
        obtain ⟨htermOK, hok1⟩ := parseTerm_wf (Nat.succ fuel) s term s1 hok hterm
        split at h
        · simp at h
        · rename_i s2 hc1
          have hok2 := checkToken_wf .Semicolon s1 true s2 hok1 hc1
          split at h
          · simp at h
          · rename_i s3 hf
            have hok3 := fetchNew_wf s2 s3 hf
            split at h
            · simp at h
            · rename_i terms1 s4 hr
              simp only [Except.ok.injEq, Prod.mk.injEq] at h
              obtain ⟨rfl, rfl⟩ := h
              obtain ⟨hne, hall⟩ := ih s3 terms1 s4 hok3 hr
              refine ⟨by simp, ?_⟩
              intro x hx
              rcases List.mem_cons.mp hx with rfl | hx
              · exact htermOK
              · exact hall x hx
        · rename_i s2 hc1
          have hok2 := checkToken_wf .Semicolon s1 false s2 hok1 hc1
          split at h
          · simp at h
          · rename_i s3 hc2
            simp only [Except.ok.injEq, Prod.mk.injEq] at h
            obtain ⟨rfl, rfl⟩ := h
            refine ⟨by simp, ?_⟩
            intro x hx
            rcases List.mem_singleton.mp hx with rfl
            exact htermOK
          · rename_i s3 hc2
            split at h
            · simp at h
            · simp at h

/-- What every successful `parse` guarantees about its result: at least
one term, and every term is well-formed. -/
theorem parse_wf (text : String) (E : Expr) (h : parse text = .ok E) :
    E.terms ≠ [] ∧ ∀ t ∈ E.terms, termOK t := by
  unfold parse at h
  split_ifs at h with hlen
  split at h
  · simp at h
  · rename_i terms s2 hrun
    simp only [Except.ok.injEq] at h
    rw [← h]
    exact parseExpr_wf (text.length + 1) ⟨text.toList, .defaultMode, none⟩
      terms s2 (stateOK_of_tok_none _ rfl) hrun

/-- C9: every `Expr` successfully returned by `parse` contains at least
one `Term`, and the path of every `Term` in it contains at least one
segment. -/
theorem C9_nonempty_invariants (text : String) (E : Expr)
    (h : parse text = .ok E) :
    E.terms ≠ [] ∧ ∀ t ∈ E.terms, t.path ≠ [] := by
  obtain ⟨hne, hall⟩ := parse_wf text E h
  exact ⟨hne, fun t ht => (hall t ht).2.1⟩

/-- Witness for C9 at the concrete input `(eq,a,'x')`. -/
theorem C9_nonempty_witness :
    parse "(eq,a,'x')" = .ok ⟨[⟨.Eq, ["a"], ["x"]⟩]⟩ ∧
      ((⟨[⟨.Eq, ["a"], ["x"]⟩]⟩ : Expr).terms ≠ [] ∧
        ∀ t ∈ (⟨[⟨.Eq, ["a"], ["x"]⟩]⟩ : Expr).terms, t.path ≠ []) :=
  ⟨by decide,
    C9_nonempty_invariants "(eq,a,'x')" ⟨[⟨.Eq, ["a"], ["x"]⟩]⟩ (by decide)⟩

/-- C8: for every operator lexeme of the table and every count of values
(zero or more), the parser accepts the term and returns a `Term` carrying
the mapped operator and exactly those values in textual order; no arity
check is applied. -/
theorem C8_any_operator_any_values (p : String × Operator)
    (hp : p ∈ [("cont", Operator.Cont), ("eq", Operator.Eq),
      ("gt", Operator.Gt), ("gte", Operator.Gte), ("in", Operator.In),
      ("lt", Operator.Lt), ("lte", Operator.Gt), ("ncont", Operator.Ncont),
      ("neq", Operator.Neq), ("nin", Operator.Nin)]) (vs : List String) :
    parse ("(" ++ p.1 ++ ",a," ++ String.mk (encValues vs) ++ ")") =
      .ok ⟨[⟨p.2, ["a"], vs⟩]⟩ := by
  fin_cases hp
  · exact parse_single_term "cont" .Cont vs (fun Y => rfl) rfl
  · exact parse_single_term "eq" .Eq vs (fun Y => rfl) rfl
  · exact parse_single_term "gt" .Gt vs (fun Y => rfl) rfl
  · exact parse_single_term "gte" .Gte vs (fun Y => rfl) rfl
  · exact parse_single_term "in" .In vs (fun Y => rfl) rfl
  · exact parse_single_term "lt" .Lt vs (fun Y => rfl) rfl
  · exact parse_single_term "lte" .Gt vs (fun Y => rfl) rfl
  · exact parse_single_term "ncont" .Ncont vs (fun Y => rfl) rfl
  · exact parse_single_term "neq" .Neq vs (fun Y => rfl) rfl
  · exact parse_single_term "nin" .Nin vs (fun Y => rfl) rfl

/-- Witness for C8 at the lexeme `in` with two values. -/
theorem C8_any_operator_witness :
    ("in", Operator.In) ∈ [("cont", Operator.Cont), ("eq", Operator.Eq),
      ("gt", Operator.Gt), ("gte", Operator.Gte), ("in", Operator.In),
      ("lt", Operator.Lt), ("lte", Operator.Gt), ("ncont", Operator.Ncont),
      ("neq", Operator.Neq), ("nin", Operator.Nin)] ∧
      parse ("(" ++ "in" ++ ",a," ++ String.mk (encValues ["x", "y"]) ++ ")") =
        .ok ⟨[⟨Operator.In, ["a"], ["x", "y"]⟩]⟩ :=
  ⟨by decide,
    C8_any_operator_any_values ("in", Operator.In) (by decide) ["x", "y"]⟩

/-- C3 counterexample: the parser accepts `(eq,@,'x')` with path `["@"]`,
but serializing that `Expr` yields `(eq,~b,'x')`, whose `~b` escape the
lexer decodes back into state S0, so the following comma discards the
lexeme and the re-parse fails instead of returning the same `Expr`. -/
theorem C3_counterexample_at_segment :
    parse "(eq,@,'x')" = .ok ⟨[⟨.Eq, ["@"], ["x"]⟩]⟩ ∧
      serializeExpr ⟨[⟨.Eq, ["@"], ["x"]⟩]⟩ = "(eq,~b,'x')" ∧
      parse "(eq,~b,'x')" =
        .error "unexpected token ',' while expecting identifier" := by
  refine ⟨by decide, rfl, by decide⟩

/-- C3 (amended): the round-trip `parse (serialize E) = .ok E` holds for
every parser-produced `Expr` in which no path segment has `@` as its last
character or `@` immediately followed by a digit. -/
theorem C3_roundtrip_amended (text : String) (E : Expr)
    (h : parse text = .ok E)
    (hat : ∀ t ∈ E.terms, ∀ seg ∈ t.path, atSafeStr seg = true) :
    parse (serializeExpr E) = .ok E := by
  obtain ⟨hne, hall⟩ := parse_wf text E h
  refine parse_serializeExpr E hne fun t ht => ?_
  obtain ⟨hop, hpne, hsegs⟩ := hall t ht
  refine ⟨hop, hpne, fun seg hseg => ?_⟩
  have hlax := hsegs seg hseg
  have hsafe : atSafe seg.toList = true := hat t ht seg hseg
  exact (segScan_strict_of_atSafe seg.toList).2.2 hlax hsafe

/-- Witness for the amended C3 at the concrete input `(lt,b,'y')`. -/
theorem C3_roundtrip_witness :
    parse "(lt,b,'y')" = .ok ⟨[⟨.Lt, ["b"], ["y"]⟩]⟩ ∧
      (∀ t ∈ (⟨[⟨.Lt, ["b"], ["y"]⟩]⟩ : Expr).terms, ∀ seg ∈ t.path,
        atSafeStr seg = true) ∧
      parse (serializeExpr ⟨[⟨.Lt, ["b"], ["y"]⟩]⟩) =
        .ok ⟨[⟨.Lt, ["b"], ["y"]⟩]⟩ :=
  ⟨by decide, by decide,
    C3_roundtrip_amended "(lt,b,'y')" ⟨[⟨.Lt, ["b"], ["y"]⟩]⟩
      (by decide) (by decide)⟩

end Filter
